import Mathlib

/-!
Verification development for the snapshot store: a shallow embedding of the
snapshot-ingestion parser (src/snapshot.rs), the deduplicating tree-traversal
engine (src/database/traverse.rs), the snapshot planter
(src/database/snapshot.rs), and a spec-modelled persistent tree editor, with
theorems settling the specification claims.
-/

set_option autoImplicit false
set_option linter.unusedVariables false

namespace Keep

/-! ## Snapshot parser embedding (src/snapshot.rs)

Streams are modelled as `List Char` (the Rust code reads bytes; all inputs of
interest are in the single-byte range, so a char-level model is exact on them).
`readUntil` models `BufRead::read_until`: it returns the chunk read (including
the delimiter when found) and the remaining stream.
-/

instance exceptDecEq {ε α : Type} [DecidableEq ε] [DecidableEq α] :
    DecidableEq (Except ε α) := fun x y =>
  match x, y with
  | .ok a, .ok b =>
    if h : a = b then .isTrue (by rw [h]) else .isFalse (fun hh => h (Except.ok.inj hh))
  | .error a, .error b =>
    if h : a = b then .isTrue (by rw [h]) else .isFalse (fun hh => h (Except.error.inj hh))
  | .ok _, .error _ => .isFalse (fun hh => Except.noConfusion hh)
  | .error _, .ok _ => .isFalse (fun hh => Except.noConfusion hh)

def readUntil (delim : Char) : List Char → (List Char × List Char)
  | [] => ([], [])
  | c :: rest =>
    if c = delim then ([c], rest)
    else
      let (a, b) := readUntil delim rest
      (c :: a, b)

/-- Splits a list at the first occurrence of `delim`: returns the part before
it and the part after it, or `none` when `delim` does not occur. -/
def splitFirst (delim : Char) : List Char → Option (List Char × List Char)
  | [] => none
  | c :: rest =>
    if c = delim then some ([], rest)
    else (splitFirst delim rest).map (fun p => (c :: p.1, p.2))

/-- The type tags accepted by the nodes-record regex character class
`[dflcbsp]`. -/
def typeTags : List Char := ['d', 'f', 'l', 'c', 'b', 's', 'p']

/-- Value of a list of decimal digit characters. -/
def decVal (ds : List Char) : Nat :=
  ds.foldl (fun a c => a * 10 + (c.toNat - 48)) 0

/-- Value of a list of octal digit characters. -/
def octVal (ds : List Char) : Nat :=
  ds.foldl (fun a c => a * 8 + (c.toNat - 48)) 0

/-- `u16::from_str_radix(s, 8)`: succeeds only when every digit is in `0..=7`
and the value fits in a `u16`. -/
def parseOct (ds : List Char) : Option Nat :=
  if ds ≠ [] ∧ (∀ c ∈ ds, '0' ≤ c ∧ c ≤ '7') ∧ octVal ds < 65536 then some (octVal ds)
  else none

/-- `str::parse::<u64>`: succeeds only when every char is a decimal digit and
the value fits in a `u64`. -/
def parseDec (ds : List Char) : Option Nat :=
  if ds ≠ [] ∧ (∀ c ∈ ds, c.isDigit) ∧ decVal ds < 2 ^ 64 then some (decVal ds)
  else none

/-- One record of the nodes stream (struct `NodesEntry`). -/
structure NodesEntry where
  ty : Char
  mode : Nat
  size : Option Nat
  path : String
  target : String
  deriving DecidableEq, Repr

/-- `NodesEntry::is_executable`. -/
def NodesEntry.isExecutable (e : NodesEntry) : Bool :=
  Nat.land e.mode 64 ≠ 0

/-- One record of the digests stream (struct `DigestsEntry`). -/
structure DigestsEntry where
  digest : String
  path : String
  deriving DecidableEq, Repr

/-- Matcher for the nodes-record regex
`^([dflcbsp]) 0([0-9]{3}[0-9]*) (([0-9]+|\?)) (.*)\x00 (.*)\x00\n$`
followed by the two numeric field conversions.
The buffers this is applied to always consist of a NUL-free chunk, a NUL, a
NUL-free chunk, a NUL, and a final single character (the shape produced by the
three `read_until` calls), and on buffers of that shape this matcher agrees
with the backtracking regex engine. -/
def parseNodesBuf (buf : List Char) : Option NodesEntry :=
  match buf with
  | t :: ' ' :: '0' :: r1 =>
    if t ∈ typeTags then
      let md := r1.takeWhile Char.isDigit
      let r2 := r1.dropWhile Char.isDigit
      if 3 ≤ md.length then
        match r2 with
        | ' ' :: r3 =>
          let sizeStep : Option (Option (List Char) × List Char) :=
            match r3 with
            | '?' :: r4 => some (none, r4)
            | _ =>
              let sd := r3.takeWhile Char.isDigit
              let r4 := r3.dropWhile Char.isDigit
              if sd ≠ [] then some (some sd, r4) else none
          match sizeStep with
          | some (szField, r4) =>
            match r4 with
            | ' ' :: r5 =>
              match splitFirst '\x00' r5 with
              | some (path, r6) =>
                if '\n' ∈ path then none
                else
                  match r6 with
                  | ' ' :: r7 =>
                    match splitFirst '\x00' r7 with
                    | some (target, r8) =>
                      if '\n' ∈ target then none
                      else if r8 = ['\n'] then
                        match parseOct md with
                        | some mode =>
                          match szField with
                          | none => some ⟨t, mode, none, ⟨path⟩, ⟨target⟩⟩
                          | some sd =>
                            match parseDec sd with
                            | some n => some ⟨t, mode, some n, ⟨path⟩, ⟨target⟩⟩
                            | none => none
                        | none => none
                      else none
                    | none => none
                  | _ => none
              | none => none
            | _ => none
          | none => none
        | _ => none
      else none
    else none
  | _ => none

/-- Lower-case-alphanumeric character, the class `[a-z0-9]` of the digests
regex. -/
def isAz09 (c : Char) : Bool :=
  ('a' ≤ c ∧ c ≤ 'z') ∨ c.isDigit

/-- Matcher for the digests-record regex
`^([a-z0-9]{64}|[?]{64}) \*(.*)\x00\n$`; same buffer-shape remark as for
`parseNodesBuf`. -/
def parseDigestsBuf (buf : List Char) : Option DigestsEntry :=
  let d := buf.take 64
  let rest := buf.drop 64
  if d.length = 64 ∧ ((∀ c ∈ d, isAz09 c) ∨ ∀ c ∈ d, c = '?') then
    match rest with
    | ' ' :: '*' :: r2 =>
      match splitFirst '\x00' r2 with
      | some (path, r3) =>
        if '\n' ∈ path then none
        else if r3 = ['\n'] then some ⟨⟨buf.take 64⟩, ⟨path⟩⟩
        else none
      | none => none
    | _ => none
  else none

/-- How a parsing step terminates abnormally. `panicked` models a Rust
`assert!`/`unwrap` failure (a process abort); `failed` models an `Err` value
returned to the caller; `fuelOut` is an artifact of the fuel-indexed
embedding of the parser loop and never arises with sufficient fuel. -/
inductive PFail where
  | panicked
  | failed
  | fuelOut
  deriving DecidableEq, Repr

/-- `NodesEntries::next`: three `read_until` reads (with the asserted
shape checks) followed by the regex match and field conversions. -/
def nodesNext (input : List Char) : Except PFail (Option NodesEntry) × List Char :=
  if input = [] then (.ok none, input)
  else
    let (u1, r1) := readUntil '\x00' input
    if u1.length = 0 then (.error .panicked, r1)
    else
      let (u2, r2) := readUntil '\x00' r1
      if u2.length = 0 then (.error .panicked, r2)
      else
        let (u3, r3) := readUntil '\n' r2
        if u3.length ≠ 1 then (.error .panicked, r3)
        else
          match parseNodesBuf (u1 ++ u2 ++ u3) with
          | some e => (.ok (some e), r3)
          | none => (.error .failed, r3)

/-- `DigestsEntries::next`: two `read_until` reads followed by the regex
match. -/
def digestsNext (input : List Char) : Except PFail (Option DigestsEntry) × List Char :=
  if input = [] then (.ok none, input)
  else
    let (u1, r1) := readUntil '\x00' input
    if u1.length = 0 then (.error .panicked, r1)
    else
      let (u2, r2) := readUntil '\n' r1
      if u2.length ≠ 1 then (.error .panicked, r2)
      else
        match parseDigestsBuf (u1 ++ u2) with
        | some e => (.ok (some e), r2)
        | none => (.error .failed, r2)

/-- Splits a character list on a separator character; always returns a
non-empty list of chunks (the char-level equivalent of `String.splitOn`). -/
def splitOnChar (d : Char) : List Char → List (List Char)
  | [] => [[]]
  | c :: rest =>
    match splitOnChar d rest with
    | [] => [[c]]
    | h :: t => if c = d then [] :: h :: t else (c :: h) :: t

/-- Modelled from the spec: `ShadowPath` parsing (`Path::parse`), whose
implementation lives in the crate root, outside the provided sources. Per the
spec a path round-trips through its `/`-separated string form, the root path
has zero components, components are never empty and never contain the
separator, and the scanner's record paths are rooted at `.` (the scenario
parses `"."` to the root path and `"./a.txt"` to `["a.txt"]`). -/
def shadowPathParse (s : String) : Option (List String) :=
  match (splitOnChar '/' s.data).map String.mk with
  | ["."] => some []
  | "." :: rest => if rest ≠ [] ∧ ∀ c ∈ rest, c ≠ "" ∧ c ≠ "." then some rest else none
  | _ => none

/-- Modelled from the spec: `ContentHash` parsing (`digest.parse()?`), whose
implementation lives outside the provided sources. Per the spec a content
hash is a 64-character hexadecimal digest. -/
def hashParse (s : String) : Option String :=
  if s.length = 64 ∧ ∀ c ∈ s.data, c.isDigit ∨ ('a' ≤ c ∧ c ≤ 'f') then some s else none

/-- `Shadow`: content hash plus optional size (its encoding is fixed by the
spec's shadow-blob body grammar). -/
structure Shadow where
  hash : String
  size : Option Nat
  deriving DecidableEq, Repr

/-- `SnapshotEntryValue`. -/
inductive SnapshotEntryValue where
  | file (shadow : Shadow) (executable : Bool)
  | link (target : String)
  | tree
  deriving DecidableEq, Repr

/-- `SnapshotEntry` (with `ShadowPath` as its component list). -/
structure SnapshotEntry where
  path : List String
  value : SnapshotEntryValue
  deriving DecidableEq, Repr

/-- The state of a `SnapshotEntries` iterator: the two stream cursors plus
the log of records skipped with a warning (`log::warn!`). -/
structure SnapState where
  nodes : List Char
  digests : List Char
  warns : List NodesEntry
  deriving DecidableEq, Repr

/-- `SnapshotEntries::next` (fuel-indexed: the `while` loop that skips
unsupported node types consumes one unit of fuel per skipped record; a fuel
of `nodes.length + 1` always suffices). -/
def snapshotNextF : Nat → SnapState → Except PFail (Option SnapshotEntry) × SnapState
  | 0, st => (.error .fuelOut, st)
  | fuel + 1, st =>
    match nodesNext st.nodes with
    | (.error f, ns) => (.error f, { st with nodes := ns })
    | (.ok none, ns) => (.ok none, { st with nodes := ns })
    | (.ok (some node), ns) =>
      match shadowPathParse node.path with
      | none => (.error .failed, { st with nodes := ns })
      | some p =>
        match node.ty with
        | 'd' => (.ok (some ⟨p, .tree⟩), { st with nodes := ns })
        | 'l' => (.ok (some ⟨p, .link node.target⟩), { st with nodes := ns })
        | 'f' =>
          match digestsNext st.digests with
          | (.error f, ds) => (.error f, { nodes := ns, digests := ds, warns := st.warns })
          | (.ok none, ds) => (.error .panicked, { nodes := ns, digests := ds, warns := st.warns })
          | (.ok (some dl), ds) =>
            if node.path = dl.path then
              match hashParse dl.digest with
              | none => (.error .failed, { nodes := ns, digests := ds, warns := st.warns })
              | some hsh =>
                (.ok (some ⟨p, .file ⟨hsh, node.size⟩ node.isExecutable⟩),
                  { nodes := ns, digests := ds, warns := st.warns })
            else (.error .panicked, { nodes := ns, digests := ds, warns := st.warns })
        | _ => snapshotNextF fuel { nodes := ns, digests := st.digests, warns := st.warns ++ [node] }

/-- `SnapshotEntries::next` with always-sufficient fuel. -/
def snapshotNext (st : SnapState) : Except PFail (Option SnapshotEntry) × SnapState :=
  snapshotNextF (st.nodes.length + 1) st

/-- Well-formedness of a digests record's fields: a 64-character lowercase-hex
digest and a path free of NUL and newline. -/
structure DigestsLineOk (dg path : List Char) : Prop where
  dg_len : dg.length = 64
  dg_hex : ∀ c ∈ dg, c.isDigit ∨ ('a' ≤ c ∧ c ≤ 'f')
  path_nul : '\x00' ∉ path
  path_lf : '\n' ∉ path

/-- Serialization of a digests record: `<digest> *<path>\x00\n`. -/
def mkDigestsLine (dg path : List Char) : List Char :=
  dg ++ [' ', '*'] ++ path ++ ['\x00', '\n']

/-! ## Traversal engine embedding (src/database/traverse.rs)

Object addresses are abstract (`Oid := Nat`); the object database is a partial
map from addresses to objects. A tree entry's object kind (`TreeEntry::kind`)
is derived from its filemode, as in libgit2.
-/

abbrev Oid := Nat

inductive ObjectType where
  | blob
  | tree
  | commit
  deriving DecidableEq, Repr

/-- `git2::FileMode` (the variants that can appear in a git tree entry). -/
inductive FileMode where
  | tree
  | blob
  | blobGroupWritable
  | blobExecutable
  | link
  | commit
  deriving DecidableEq, Repr

/-- `TreeEntry::kind`: the object type derived from the entry's filemode. -/
def kindOf : FileMode → ObjectType
  | .tree => .tree
  | .commit => .commit
  | _ => .blob

/-- Modelled from the spec: a stored tree-entry name, represented by the
outcome of `BulkTreeEntryName::decode` (whose implementation lives in the
crate root, outside the provided sources): `marker` is the reserved marker
name, `component c` an escaped real component decoding to `c`, and `bad` a
name on which decoding fails (the reserved-collision error). -/
inductive RawName where
  | marker
  | component (c : String)
  | bad
  deriving DecidableEq, Repr

structure TreeEntry where
  name : RawName
  mode : FileMode
  oid : Oid
  deriving DecidableEq, Repr

/-- An object of the object database: a blob (content bytes, modelled as
chars) or a tree (ordered entry list). -/
inductive Obj where
  | blob (content : List Char)
  | tree (entries : List TreeEntry)
  deriving DecidableEq, Repr

def Store := Oid → Option Obj

inductive VisitTreeDecision where
  | descend
  | skip
  deriving DecidableEq, Repr

/-- How a traversal terminates abnormally. The `ensure!`/`bail!` failures of
`Traverser::traverse_from` are classified by the spec's taxonomy
(`invalidTreeStructure`, `unsupportedEntry`); `decodeError` is a failing
entry-name decode; `objectError` a failing object-database read
(`find_tree`/`find_blob`); `panicked` models the `unwrap` on a marker name in
non-first position; `callback e` propagates a visitor error; `outOfFuel` is
an artifact of the fuel-indexed embedding. -/
inductive TravErr where
  | outOfFuel
  | invalidTreeStructure
  | unsupportedEntry
  | decodeError
  | objectError
  | panicked
  | callback (code : Nat)
  deriving DecidableEq, Repr

/-- `TraversalCallbacks`, with explicit visitor state `σ` and errors as
`Nat` codes. Each hook returns the updated state together with its result
(the state update survives a failing hook, as a `&mut` visitor does). -/
structure Callbacks (σ : Type) where
  onBlob : σ → List String → Oid → Bool → σ × Except Nat Unit
  onLink : σ → List String → Oid → σ × Except Nat Unit
  onTree : σ → List String → Oid → σ × Except Nat VisitTreeDecision

/-- Result of a traversal: the `empty_blob_oid` cache, the visitor state, the
final value of the mutable path accumulator, and the outcome. -/
abbrev TravOut (σ : Type) := Option Oid × σ × List String × Except TravErr Unit

/-- A pending call of the traversal engine: `tf` is `traverse_from` at a
tree address, `go` the entry loop over a tree's remaining entries (with the
`first` flag driving marker validation), `ve` the visit of one non-first
entry. All three carry the `empty_blob_oid` cache, the visitor state and the
current path accumulator. -/
inductive TravReq (σ : Type) where
  | tf (eb : Option Oid) (s : σ) (path : List String) (oid : Oid)
  | go (eb : Option Oid) (s : σ) (path : List String) (first : Bool) (entries : List TreeEntry)
  | ve (eb : Option Oid) (s : σ) (path : List String) (e : TreeEntry)

/-- The traversal engine (`Traverser::traverse_from` and its entry loop),
written as a single fuel-indexed step function so that it reduces by
structural recursion. Fuel is consumed once per internal call and is an
artifact of the embedding (`outOfFuel` never arises with enough fuel).

Per entry: the name is decoded (`decodeError` on failure); the first entry
must be the marker with blob mode and kind, pointing at a zero-length blob —
checked lazily once per traversal and cached in `eb` (`ensure_blob_is_empty`);
a marker name in non-first position hits the panicking `unwrap`. A non-first
component is pushed onto the path accumulator, then dispatched by the kind
derived from its mode (so `ensure!(mode == FileMode::Tree)` on tree-kind
entries is subsumed): link mode invokes `on_link`; blob mode invokes
`on_blob` with `executable = true`, blob-executable mode with
`executable = false` (this is the source's mapping); other blob-kind modes
and commit kind fail with `unsupportedEntry`; tree kind recurses. The pop of
the path accumulator happens only on a successful visit, as the `?` early
returns do in the source. -/
def travGo {σ : Type} (store : Store) (cb : Callbacks σ) :
    Nat → TravReq σ → TravOut σ
  | 0, .tf eb s path _ => (eb, s, path, .error .outOfFuel)
  | 0, .go eb s path _ _ => (eb, s, path, .error .outOfFuel)
  | 0, .ve eb s path _ => (eb, s, path, .error .outOfFuel)
  | fuel + 1, .tf eb s path oid =>
    match cb.onTree s path oid with
    | (s1, .error e) => (eb, s1, path, .error (.callback e))
    | (s1, .ok .skip) => (eb, s1, path, .ok ())
    | (s1, .ok .descend) =>
      match store oid with
      | some (.tree entries) => travGo store cb fuel (.go eb s1 path true entries)
      | _ => (eb, s1, path, .error .objectError)
  | fuel + 1, .go eb s path first entries =>
    match first, entries with
    | _, [] => (eb, s, path, .ok ())
    | true, e :: rest =>
      match e.name with
      | .bad => (eb, s, path, .error .decodeError)
      | .component _ => (eb, s, path, .error .invalidTreeStructure)
      | .marker =>
        if e.mode = .blob then
          match eb with
          | some x =>
            if e.oid = x then travGo store cb fuel (.go eb s path false rest)
            else (eb, s, path, .error .invalidTreeStructure)
          | none =>
            match store e.oid with
            | some (.blob c) =>
              if c.length = 0 then travGo store cb fuel (.go (some e.oid) s path false rest)
              else (eb, s, path, .error .invalidTreeStructure)
            | _ => (eb, s, path, .error .objectError)
        else (eb, s, path, .error .invalidTreeStructure)
    | false, e :: rest =>
      match travGo store cb fuel (.ve eb s path e) with
      | (eb1, s1, p1, .ok _) => travGo store cb fuel (.go eb1 s1 p1.dropLast false rest)
      | (eb1, s1, p1, .error er) => (eb1, s1, p1, .error er)
  | fuel + 1, .ve eb s path e =>
    match e.name with
    | .bad => (eb, s, path, .error .decodeError)
    | .marker => (eb, s, path, .error .panicked)
    | .component c =>
      match kindOf e.mode with
      | .blob =>
        if e.mode = .link then
          match cb.onLink s (path ++ [c]) e.oid with
          | (s1, .error er) => (eb, s1, path ++ [c], .error (.callback er))
          | (s1, .ok _) => (eb, s1, path ++ [c], .ok ())
        else if e.mode = .blob then
          match cb.onBlob s (path ++ [c]) e.oid true with
          | (s1, .error er) => (eb, s1, path ++ [c], .error (.callback er))
          | (s1, .ok _) => (eb, s1, path ++ [c], .ok ())
        else if e.mode = .blobExecutable then
          match cb.onBlob s (path ++ [c]) e.oid false with
          | (s1, .error er) => (eb, s1, path ++ [c], .error (.callback er))
          | (s1, .ok _) => (eb, s1, path ++ [c], .ok ())
        else (eb, s, path ++ [c], .error .unsupportedEntry)
      | .tree => travGo store cb fuel (.tf eb s (path ++ [c]) e.oid)
      | .commit => (eb, s, path ++ [c], .error .unsupportedEntry)

/-- `Traverser::traverse_from` as a plain function of its arguments. -/
def traverseFrom {σ : Type} (store : Store) (cb : Callbacks σ) (fuel : Nat)
    (eb : Option Oid) (s : σ) (path : List String) (oid : Oid) : TravOut σ :=
  travGo store cb fuel (.tf eb s path oid)

/-- `Traverser::traverse`: a traversal from the empty path with a fresh
`empty_blob_oid` cache. -/
def traverse {σ : Type} (store : Store) (cb : Callbacks σ) (fuel : Nat) (s : σ)
    (root : Oid) : TravOut σ :=
  traverseFrom store cb fuel none s [] root

/-- `OnUnique`: the deduplicating adapter, with its seen-set (a `BTreeSet` in
the source, modelled as a list with membership-checked insertion). The oid is
inserted before the inner visitor runs, and stays inserted even when the
inner visitor fails, exactly as `BTreeSet::insert` does. -/
def onUnique {σ : Type} (inner : Callbacks σ) : Callbacks (List Oid × σ) where
  onBlob := fun st p o ex =>
    if o ∈ st.1 then (st, .ok ())
    else
      let (s1, r) := inner.onBlob st.2 p o ex
      ((o :: st.1, s1), r)
  onLink := fun st p o =>
    if o ∈ st.1 then (st, .ok ())
    else
      let (s1, r) := inner.onLink st.2 p o
      ((o :: st.1, s1), r)
  onTree := fun st p o =>
    if o ∈ st.1 then (st, .ok .skip)
    else
      let (s1, r) := inner.onTree st.2 p o
      ((o :: st.1, s1), r)

/-- An observable visitor invocation, used to state exactly-once properties. -/
inductive VisitEvent where
  | blob (oid : Oid) (executable : Bool)
  | link (oid : Oid)
  | tree (oid : Oid)
  deriving DecidableEq, Repr

def VisitEvent.oid : VisitEvent → Oid
  | .blob o _ => o
  | .link o => o
  | .tree o => o

/-- A visitor that records every invocation it receives and always succeeds
(returning `Descend` for trees). -/
def recorder : Callbacks (List VisitEvent) where
  onBlob := fun s _ o ex => (s ++ [.blob o ex], .ok ())
  onLink := fun s _ o => (s ++ [.link o], .ok ())
  onTree := fun s _ o => (s ++ [.tree o], .ok .descend)

/-- A traversal with the dedup adapter wrapped around the recording visitor:
the state is the seen-set together with the inner visitor's invocation log. -/
def travRec (store : Store) (fuel : Nat) (root : Oid) :
    TravOut (List Oid × List VisitEvent) :=
  traverse store (onUnique recorder) fuel ([], []) root

/-- Modelled from the spec: `BlobShadow::from_bytes` (implementation in the
crate root, outside the provided sources), following the spec's shadow-blob
body grammar `"<64-hex-char hash> <decimal size or '?'>"`. -/
def shadowFromChars (c : List Char) : Option Shadow :=
  let hsh := c.take 64
  let rest := c.drop 64
  if hsh.length = 64 ∧ ∀ x ∈ hsh, x.isDigit ∨ ('a' ≤ x ∧ x ≤ 'f') then
    match rest with
    | ' ' :: tl =>
      if tl = ['?'] then some ⟨⟨hsh⟩, none⟩
      else if tl ≠ [] ∧ ∀ d ∈ tl, d.isDigit then some ⟨⟨hsh⟩, some (decVal tl)⟩
      else none
    | _ => none
  else none

/-- The visitor of `Database::check`: `on_blob` forces `read_blob` (an object
read plus shadow decode), `on_link` forces `read_link` (an object read). -/
def checkCallbacks (store : Store) : Callbacks Unit where
  onBlob := fun _ _ o _ =>
    ((), match store o with
      | some (.blob c) => if (shadowFromChars c).isSome then .ok () else .error 0
      | _ => .error 1)
  onLink := fun _ _ o =>
    ((), match store o with
      | some (.blob _) => .ok ()
      | _ => .error 1)
  onTree := fun s _ _ => (s, .ok .descend)

/-- `Database::check`: the check visitor wrapped in the dedup adapter. -/
def check (store : Store) (fuel : Nat) (root : Oid) : TravOut (List Oid × Unit) :=
  traverse store (onUnique (checkCallbacks store)) fuel ([], ()) root

/-- The addresses reachable from a root tree by the traversal discipline:
the root itself, and, through each tree, the targets of its non-first
entries — tree-kind entries recursively (bounded by `g`), other entries as
leaves. The first (marker) entry is consumed by validation and is not a
visited address. -/
def reachTree (store : Store) : Nat → Oid → List Oid
  | 0, oid => [oid]
  | g + 1, oid =>
    oid ::
      (match store oid with
      | some (.tree es) =>
        (es.drop 1).flatMap fun e =>
          if kindOf e.mode = ObjectType.tree then reachTree store g e.oid else [e.oid]
      | _ => [])

/-- The visitor state of the dedup-wrapped recording traversal: the adapter's
seen-set and the inner visitor's invocation log. -/
abbrev RecSt := List Oid × List VisitEvent

/-- The visitor state carried by a pending traversal call. -/
def TravReq.rstate {σ : Type} : TravReq σ → σ
  | .tf _ s _ _ => s
  | .go _ s _ _ _ => s
  | .ve _ s _ _ => s

/-- The entries a `go` request still has to visit (the marker is consumed by
validation, not visited). -/
def TravReq.pending {σ : Type} : TravReq σ → List TreeEntry
  | .tf _ _ _ _ => []
  | .go _ _ _ first entries => if first then entries.drop 1 else entries
  | .ve _ _ _ e => [e]

/-- State evolution of the dedup adapter around the recording visitor: the
seen-set only grows, the log grows by a suffix whose addresses are exactly
the newly seen ones, and — when the log's addresses were distinct and all
seen — they remain so. -/
def UniquePost (seen : List Oid) (evs : List VisitEvent)
    (seen2 : List Oid) (evs2 : List VisitEvent) : Prop :=
  (∀ o ∈ seen, o ∈ seen2) ∧
  (∃ fresh, evs2 = evs ++ fresh ∧
    ∀ o, o ∈ seen2 ↔ (o ∈ seen ∨ o ∈ fresh.map VisitEvent.oid)) ∧
  ((evs.map VisitEvent.oid).Nodup → (∀ o ∈ evs.map VisitEvent.oid, o ∈ seen) →
    ((evs2.map VisitEvent.oid).Nodup ∧ ∀ o ∈ evs2.map VisitEvent.oid, o ∈ seen2))

/-- Every tree address newly added to the seen-set has all its non-first
entry targets in the final seen-set. -/
def ClosedNew (store : Store) (seen seen2 : List Oid) : Prop :=
  ∀ t ∈ seen2, t ∉ seen → ∀ es2, store t = some (Obj.tree es2) →
    ∀ e ∈ es2.drop 1, e.oid ∈ seen2

/-- The addresses reachable through a list of tree entries (tree-kind entries
expanded recursively, others as leaves). -/
def entriesReach (store : Store) (g : Nat) (es : List TreeEntry) : List Oid :=
  es.flatMap fun e =>
    if kindOf e.mode = ObjectType.tree then reachTree store g e.oid else [e.oid]

/-- Blob-kind typing of the entries a request still has to visit (for `tf`
requests it follows from `WellTyped` at descend time). -/
def ReqTyped (store : Store) {σ : Type} (req : TravReq σ) : Prop :=
  ∀ e ∈ req.pending, kindOf e.mode = ObjectType.blob →
    ∃ c, store e.oid = some (Obj.blob c)

/-- A store is well-typed when every blob-kind entry of every stored tree
points at a stored blob (tree-kind entries are forced to point at trees by a
successful traversal, but blob-kind entries are never dereferenced by the
engine, so this direction must be assumed). -/
def WellTyped (store : Store) : Prop :=
  ∀ o es, store o = some (Obj.tree es) →
    ∀ e ∈ es.drop 1, kindOf e.mode = ObjectType.blob →
      ∃ c, store e.oid = some (Obj.blob c)

/-! ## Snapshot planter embedding (src/database/snapshot.rs)

The object database writes content-addressed, idempotent objects (§6), so an
address is identified with the object value it denotes: `GObj` is both the
stored object and its address, making `same content ⇒ same address` hold by
construction. Planting additionally returns the list of all tree objects it
wrote, so that invariants of every written tree can be stated.
-/

inductive GObj where
  | blob (content : List Char)
  | tree (entries : List (String × FileMode × GObj))
  deriving Repr

mutual

def GObj.deq : (a b : GObj) → Decidable (a = b)
  | .blob x, .blob y =>
    match decEq x y with
    | isTrue h => isTrue (h ▸ rfl)
    | isFalse h => isFalse (fun hh => h (GObj.blob.inj hh))
  | .tree xs, .tree ys =>
    match GObj.deqEntries xs ys with
    | isTrue h => isTrue (h ▸ rfl)
    | isFalse h => isFalse (fun hh => h (GObj.tree.inj hh))
  | .blob _, .tree _ => isFalse (fun hh => GObj.noConfusion hh)
  | .tree _, .blob _ => isFalse (fun hh => GObj.noConfusion hh)

def GObj.deqEntries :
    (a b : List (String × FileMode × GObj)) → Decidable (a = b)
  | [], [] => isTrue rfl
  | [], _ :: _ => isFalse (fun hh => List.noConfusion hh)
  | _ :: _, [] => isFalse (fun hh => List.noConfusion hh)
  | (k, m, o) :: t, (k2, m2, o2) :: t2 =>
    match decEq k k2, decEq m m2, GObj.deq o o2, GObj.deqEntries t t2 with
    | isTrue h1, isTrue h2, isTrue h3, isTrue h4 =>
      isTrue (by rw [h1, h2, h3, h4])
    | isFalse h1, _, _, _ => isFalse (by simp; intro hk; exact absurd hk h1)
    | _, isFalse h2, _, _ => isFalse (by simp; intro _ hm; exact absurd hm h2)
    | _, _, isFalse h3, _ => isFalse (by simp; intro _ _ ho; exact absurd ho h3)
    | _, _, _, isFalse h4 => isFalse (by simp; intro _ _ _ ht; exact absurd ht h4)

end

instance : DecidableEq GObj := GObj.deq

/-- Modelled from the spec: the encoded reserved marker name
(`ShadowTreeEntryName::Marker.encode()`, implementation outside the provided
sources). It must sort before every legal escaped component name; since real
components are non-empty, the empty string does. -/
def markerEncoded : String := ""

/-- Modelled from the spec: the escaped encoding of a real component name
(`name.encode()`), injective and never colliding with the marker form.
Components are non-empty strings, so the identity encoding has both
properties against the empty marker name. -/
def encodeChild (c : String) : String := c

/-- `Shadow::to_bytes` / `BlobShadow::to_bytes` following the spec's
shadow-blob body grammar. -/
def shadowChars (sh : Shadow) : List Char :=
  sh.hash.data ++ ' ' :: (match sh.size with
    | some n => (toString n).data
    | none => ['?'])

mutual

/-- `Database::plant_snapshot_inner`: plants one entry; for a `Tree` entry
the children loop is `plantLoop`, starting from a builder holding the marker
entry pointing at the memoized empty-blob address. Returns the planted
`(mode, object)`, the unconsumed remainder of the entry sequence, and the
log of all tree objects written. `none` models an assertion failure or fuel
exhaustion. -/
def plantInner (empty : GObj) :
    Nat → SnapshotEntry → List SnapshotEntry →
      Option ((FileMode × GObj) × List SnapshotEntry × List (List (String × FileMode × GObj)))
  | 0, _, _ => none
  | fuel + 1, e, rest =>
    match e.value with
    | .file sh ex =>
      some ((if ex then FileMode.blobExecutable else FileMode.blob, GObj.blob (shadowChars sh)),
        rest, [])
    | .link tgt => some ((FileMode.link, GObj.blob tgt.data), rest, [])
    | .tree =>
      match plantLoop empty fuel e.path rest [(markerEncoded, FileMode.blob, empty)] with
      | some (ents, rem, log) => some ((FileMode.tree, GObj.tree ents), rem, log ++ [ents])
      | none => none
termination_by structural fuel e rest => fuel

/-- The `while let Some(child_candidate) = entries.peek()` loop of
`plant_snapshot_inner`: consumes immediate children of `dir` (entries whose
path's parent equals `dir`), planting each recursively and inserting it into
the builder under its encoded final component. A peeked entry with an empty
path models the panicking `[..len - 1]` slice. -/
def plantLoop (empty : GObj) :
    Nat → List String → List SnapshotEntry → List (String × FileMode × GObj) →
      Option (List (String × FileMode × GObj) × List SnapshotEntry ×
        List (List (String × FileMode × GObj)))
  | 0, _, _, _ => none
  | fuel + 1, dir, entries, acc =>
    match entries with
    | [] => some (acc, [], [])
    | child :: rest =>
      match child.path.getLast? with
      | none => none
      | some childName =>
        if child.path.dropLast = dir then
          match plantInner empty fuel child rest with
          | some ((m, o), rem, log) =>
            match plantLoop empty fuel dir rem (acc ++ [(encodeChild childName, m, o)]) with
            | some (ents, rem2, log2) => some (ents, rem2, log ++ log2)
            | none => none
          | none => none
        else some (acc, entries, [])
termination_by structural fuel dir entries acc => fuel

end

/-- `Database::plant_snapshot` on an already-parsed entry sequence: the first
entry must exist and have the root path, the remainder must be exhausted
after planting (both asserted, modelled as `none`). The empty-blob address
memoized by `Database::empty_blob_oid` is, in the value model, the empty
blob itself, obtained once and passed to the whole plant. -/
def plantSnapshot (fuel : Nat) (entries : List SnapshotEntry) :
    Option ((FileMode × GObj) × List (List (String × FileMode × GObj))) :=
  match entries with
  | [] => none
  | e :: rest =>
    if e.path = [] then
      match plantInner (GObj.blob []) fuel e rest with
      | some (res, rem, log) => if rem = [] then some (res, log) else none
      | none => none
    else none

/-! ## Persistent tree editor, modelled from the spec (§4.6)

Modelled from the spec: `Database::append` and `Database::remove` are not
among the provided sources (only their callers are), so they are modelled
from §4.6: a copy-on-write descent that rewrites only the trees along the
edited path, failing with `EntryAlreadyExists` / `EntryNotFound` at the
final component, and preserving the marker invariant at every level (a
missing intermediate directory is treated as an empty tree, which carries
only the marker). Trees are `GObj` values, so address equality is content
equality, as in the content-addressed database.
-/

inductive EditErr where
  | entryAlreadyExists
  | entryNotFound
  | notATree
  | emptyPath
  deriving DecidableEq, Repr

/-- First value bound to key `k` in an entry list. -/
def lookupFirst (k : String) : List (String × FileMode × GObj) → Option (FileMode × GObj)
  | [] => none
  | (k2, v) :: t => if k2 = k then some v else lookupFirst k t

/-- Replaces the value of the first entry with key `k`. -/
def setFirst (k : String) (v : FileMode × GObj) :
    List (String × FileMode × GObj) → List (String × FileMode × GObj)
  | [] => []
  | (k2, w) :: t => if k2 = k then (k2, v) :: t else (k2, w) :: setFirst k v t

/-- Removes the first entry with key `k`. -/
def eraseFirst (k : String) :
    List (String × FileMode × GObj) → List (String × FileMode × GObj)
  | [] => []
  | (k2, w) :: t => if k2 = k then t else (k2, w) :: eraseFirst k t

/-- Bytewise-lexicographic order on names (the sort order of git tree
entries), at the character level. -/
def charListLt : List Char → List Char → Bool
  | [], [] => false
  | [], _ :: _ => true
  | _ :: _, [] => false
  | a :: as, b :: bs => if a < b then true else if b < a then false else charListLt as bs

def keyLt (a b : String) : Bool := charListLt a.data b.data

/-- Inserts a new entry keeping the name-sorted order of tree entries. -/
def insertSorted (k : String) (v : FileMode × GObj) :
    List (String × FileMode × GObj) → List (String × FileMode × GObj)
  | [] => [(k, v)]
  | (k2, w) :: t =>
    if keyLt k k2 then (k, v) :: (k2, w) :: t else (k2, w) :: insertSorted k v t

/-- The logically-empty directory: a tree carrying only the marker entry. -/
def emptyTreeG : GObj :=
  GObj.tree [(markerEncoded, FileMode.blob, GObj.blob [])]

/-- Modelled from the spec: `Database::append`. -/
def appendG : GObj → List String → FileMode → GObj → Bool → Except EditErr GObj
  | _, [], _, _, _ => .error .emptyPath
  | GObj.tree es, [c], m, o, force =>
    match lookupFirst (encodeChild c) es with
    | some _ =>
      if force then .ok (GObj.tree (setFirst (encodeChild c) (m, o) es))
      else .error .entryAlreadyExists
    | none => .ok (GObj.tree (insertSorted (encodeChild c) (m, o) es))
  | GObj.tree es, c :: rest, m, o, force =>
    let sub :=
      match lookupFirst (encodeChild c) es with
      | some (_, s) => s
      | none => emptyTreeG
    match appendG sub rest m o force with
    | .ok sub2 =>
      .ok (GObj.tree
        (match lookupFirst (encodeChild c) es with
        | some _ => setFirst (encodeChild c) (FileMode.tree, sub2) es
        | none => insertSorted (encodeChild c) (FileMode.tree, sub2) es))
    | .error e => .error e
  | GObj.blob _, _ :: _, _, _, _ => .error .notATree
termination_by structural t p m o force => p

/-- Modelled from the spec: `Database::remove`. -/
def removeG : GObj → List String → Except EditErr GObj
  | _, [] => .error .emptyPath
  | GObj.tree es, [c] =>
    match lookupFirst (encodeChild c) es with
    | some _ => .ok (GObj.tree (eraseFirst (encodeChild c) es))
    | none => .error .entryNotFound
  | GObj.tree es, c :: rest =>
    match lookupFirst (encodeChild c) es with
    | some (_, s) =>
      match removeG s rest with
      | .ok s2 => .ok (GObj.tree (setFirst (encodeChild c) (FileMode.tree, s2) es))
      | .error e => .error e
    | none => .error .entryNotFound
  | GObj.blob _, _ :: _ => .error .notATree
termination_by structural t p => p

/-- The non-collision condition of the append/remove inverse: every proper
prefix of the path resolves to an existing tree entry and the final
component is absent at its level. -/
def pathFits : GObj → List String → Bool
  | GObj.tree es, [c] => (lookupFirst (encodeChild c) es).isNone
  | GObj.tree es, c :: rest =>
    match lookupFirst (encodeChild c) es with
    | some (FileMode.tree, sub) => pathFits sub rest
    | _ => false
  | _, _ => false

/-! ### Concrete fixtures used by witnesses and counterexamples -/

/-- A visitor that does nothing and always descends. -/
def cbNoop : Callbacks Unit where
  onBlob := fun s _ _ _ => (s, .ok ())
  onLink := fun s _ _ => (s, .ok ())
  onTree := fun s _ _ => (s, .ok .descend)

/-- A visitor whose `on_blob` fails. -/
def cbFailBlob : Callbacks Unit where
  onBlob := fun s _ _ _ => (s, .error 7)
  onLink := fun s _ _ => (s, .ok ())
  onTree := fun s _ _ => (s, .ok .descend)

/-- A store with a root tree holding the marker and one non-executable blob
entry: `0 ↦ tree [marker ↦ 1, "a" ↦ 2]`, `1 ↦ empty blob`, `2 ↦ shadow
blob`. -/
def storeSmall : Store := fun o =>
  if o = 0 then
    some (.tree [⟨.marker, .blob, 1⟩, ⟨.component "a", .blob, 2⟩])
  else if o = 1 then some (.blob [])
  else if o = 2 then some (.blob (shadowChars ⟨⟨List.replicate 64 'a'⟩, some 5⟩))
  else none

/-- Like `storeSmall`, but the blob entry carries the blob-executable mode. -/
def storeSmallExec : Store := fun o =>
  if o = 0 then
    some (.tree [⟨.marker, .blob, 1⟩, ⟨.component "a", .blobExecutable, 2⟩])
  else if o = 1 then some (.blob [])
  else if o = 2 then some (.blob (shadowChars ⟨⟨List.replicate 64 'a'⟩, some 5⟩))
  else none

/-- A store whose root tree references the same subtree at two sibling
positions: `0 ↦ tree [marker ↦ 1, "a" ↦ 3, "b" ↦ 3]`, `3 ↦ tree [marker]`. -/
def storeDup : Store := fun o =>
  if o = 0 then
    some (.tree [⟨.marker, .blob, 1⟩, ⟨.component "a", .tree, 3⟩,
      ⟨.component "b", .tree, 3⟩])
  else if o = 1 then some (.blob [])
  else if o = 3 then some (.tree [⟨.marker, .blob, 1⟩])
  else none

/-- A store whose root tree reaches the same blob address `2` once through a
file entry and once through a link entry. -/
def storeCrossKind : Store := fun o =>
  if o = 0 then
    some (.tree [⟨.marker, .blob, 1⟩, ⟨.component "a", .blob, 2⟩,
      ⟨.component "b", .link, 2⟩])
  else if o = 1 then some (.blob [])
  else if o = 2 then some (.blob (shadowChars ⟨⟨List.replicate 64 'a'⟩, some 5⟩))
  else none

/-- A store whose root tree's first entry is not the marker. -/
def storeBadMarker : Store := fun o =>
  if o = 0 then some (.tree [⟨.component "z", .blob, 1⟩])
  else if o = 1 then some (.blob [])
  else none

/-! ### Stream-level lemmas -/

theorem readUntil_append {d : Char} {xs : List Char} (rest : List Char) (h : d ∉ xs) :
    readUntil d (xs ++ d :: rest) = (xs ++ [d], rest) := by
  induction xs with
  | nil => simp [readUntil]
  | cons c t ih =>
    have hcd : c ≠ d := fun hc => h (by simp [hc])
    have ht : d ∉ t := fun hc => h (by simp [hc])
    simp [readUntil, hcd, ih ht]

theorem splitFirst_append {d : Char} {xs : List Char} (rest : List Char) (h : d ∉ xs) :
    splitFirst d (xs ++ d :: rest) = some (xs, rest) := by
  induction xs with
  | nil => simp [splitFirst]
  | cons c t ih =>
    have hcd : c ≠ d := fun hc => h (by simp [hc])
    have ht : d ∉ t := fun hc => h (by simp [hc])
    simp [splitFirst, hcd, ih ht]

theorem hexChar_ne_nul {c : Char} (h : c.isDigit ∨ ('a' ≤ c ∧ c ≤ 'f')) :
    c ≠ '\x00' := by
  intro he
  subst he
  rcases h with h | h
  · exact absurd h (by decide)
  · exact absurd h.1 (by decide)

theorem hexChar_az09 {c : Char} (h : c.isDigit ∨ ('a' ≤ c ∧ c ≤ 'f')) :
    isAz09 c = true := by
  rcases h with h | h
  · simp [isAz09, h]
  · have : 'a' ≤ c ∧ c ≤ 'z' := ⟨h.1, le_trans h.2 (by decide)⟩
    simp [isAz09, this.1, this.2]

theorem digestsNext_mk {dg path : List Char} (rest : List Char)
    (h : DigestsLineOk dg path) :
    digestsNext (mkDigestsLine dg path ++ rest) = (.ok (some ⟨⟨dg⟩, ⟨path⟩⟩), rest) := by
  have hnulA : '\x00' ∉ dg ++ [' ', '*'] ++ path := by
    intro hm
    simp only [List.mem_append, List.mem_cons, List.not_mem_nil] at hm
    rcases hm with (hm | hm) | hm
    · exact hexChar_ne_nul (h.dg_hex _ hm) rfl
    · rcases hm with hm | hm | hm <;> simp_all
    · exact h.path_nul hm
  have h1 : mkDigestsLine dg path ++ rest =
      (dg ++ [' ', '*'] ++ path) ++ '\x00' :: ('\n' :: rest) := by
    simp [mkDigestsLine]
  have hne : mkDigestsLine dg path ++ rest ≠ [] := by
    rw [h1]
    rcases dg with _ | ⟨c, t⟩
    · exact absurd h.dg_len (by decide)
    · simp
  have hb : parseDigestsBuf ((dg ++ [' ', '*'] ++ path ++ ['\x00']) ++ ['\n']) =
      some ⟨⟨dg⟩, ⟨path⟩⟩ := by
    have hshape : (dg ++ [' ', '*'] ++ path ++ ['\x00']) ++ ['\n'] =
        dg ++ (' ' :: '*' :: (path ++ '\x00' :: ['\n']))  := by simp
    rw [hshape]
    have htake : (dg ++ (' ' :: '*' :: (path ++ '\x00' :: ['\n']))).take 64 = dg := by
      rw [← h.dg_len]
      exact List.take_left dg _
    have hdrop : (dg ++ (' ' :: '*' :: (path ++ '\x00' :: ['\n']))).drop 64 =
        ' ' :: '*' :: (path ++ '\x00' :: ['\n']) := by
      rw [← h.dg_len]
      exact List.drop_left dg _
    have haz : ∀ c ∈ dg, isAz09 c = true := fun c hc => hexChar_az09 (h.dg_hex c hc)
    have hcond : dg.length = 64 ∧ ((∀ c ∈ dg, isAz09 c = true) ∨ ∀ c ∈ dg, c = '?') :=
      ⟨h.dg_len, Or.inl haz⟩
    simp only [parseDigestsBuf, htake, hdrop]
    rw [if_pos hcond, splitFirst_append ['\n'] h.path_nul]
    simp [h.path_lf]
  rw [h1, digestsNext, if_neg (h1 ▸ hne)]
  rw [readUntil_append ('\n' :: rest) hnulA]
  have hlen : (dg ++ [' ', '*'] ++ path ++ ['\x00']).length ≠ 0 := by
    simp
  have hru2 : readUntil '\n' ('\n' :: rest) = (['\n'], rest) := by
    simp [readUntil]
  simp only [List.append_assoc] at hlen hb ⊢
  rw [if_neg hlen, hru2]
  have hb2 : parseDigestsBuf (dg ++ ' ' :: '*' :: (path ++ ['\x00', '\n'])) =
      some ⟨⟨dg⟩, ⟨path⟩⟩ := by
    simpa using hb
  simp [hb2]

/-! ### Single-step lemmas for `SnapshotEntries::next` -/

theorem snapshotNextF_dir {fuel : Nat} {st : SnapState} {node : NodesEntry}
    {ns : List Char} {p : List String}
    (hn : nodesNext st.nodes = (.ok (some node), ns)) (hty : node.ty = 'd')
    (hp : shadowPathParse node.path = some p) :
    snapshotNextF (fuel + 1) st = (.ok (some ⟨p, .tree⟩), { st with nodes := ns }) := by
  simp [snapshotNextF, hn, hp, hty]

theorem snapshotNextF_link {fuel : Nat} {st : SnapState} {node : NodesEntry}
    {ns : List Char} {p : List String}
    (hn : nodesNext st.nodes = (.ok (some node), ns)) (hty : node.ty = 'l')
    (hp : shadowPathParse node.path = some p) :
    snapshotNextF (fuel + 1) st =
      (.ok (some ⟨p, .link node.target⟩), { st with nodes := ns }) := by
  simp [snapshotNextF, hn, hp, hty]

theorem snapshotNextF_file {fuel : Nat} {st : SnapState} {node : NodesEntry}
    {ns ds : List Char} {p : List String} {dl : DigestsEntry} {hsh : String}
    (hn : nodesNext st.nodes = (.ok (some node), ns)) (hty : node.ty = 'f')
    (hp : shadowPathParse node.path = some p)
    (hd : digestsNext st.digests = (.ok (some dl), ds))
    (hpath : node.path = dl.path)
    (hh : hashParse dl.digest = some hsh) :
    snapshotNextF (fuel + 1) st =
      (.ok (some ⟨p, .file ⟨hsh, node.size⟩ node.isExecutable⟩),
        ⟨ns, ds, st.warns⟩) := by
  have hp2 : shadowPathParse dl.path = some p := hpath ▸ hp
  simp [snapshotNextF, hn, hp, hty, hd, hpath, hh, hp2]

theorem snapshotNextF_file_noDigest {fuel : Nat} {st : SnapState} {node : NodesEntry}
    {ns ds : List Char} {p : List String}
    (hn : nodesNext st.nodes = (.ok (some node), ns)) (hty : node.ty = 'f')
    (hp : shadowPathParse node.path = some p)
    (hd : digestsNext st.digests = (.ok none, ds)) :
    snapshotNextF (fuel + 1) st = (.error .panicked, ⟨ns, ds, st.warns⟩) := by
  simp [snapshotNextF, hn, hp, hty, hd]

theorem snapshotNextF_file_mismatch {fuel : Nat} {st : SnapState} {node : NodesEntry}
    {ns ds : List Char} {p : List String} {dl : DigestsEntry}
    (hn : nodesNext st.nodes = (.ok (some node), ns)) (hty : node.ty = 'f')
    (hp : shadowPathParse node.path = some p)
    (hd : digestsNext st.digests = (.ok (some dl), ds))
    (hpath : node.path ≠ dl.path) :
    snapshotNextF (fuel + 1) st = (.error .panicked, ⟨ns, ds, st.warns⟩) := by
  simp [snapshotNextF, hn, hp, hty, hd, hpath]

theorem snapshotNextF_skips {fuel : Nat} {st : SnapState} {node : NodesEntry}
    {ns : List Char} {p : List String}
    (hn : nodesNext st.nodes = (.ok (some node), ns))
    (hty : node.ty ∈ (['c', 'b', 's', 'p'] : List Char))
    (hp : shadowPathParse node.path = some p) :
    snapshotNextF (fuel + 1) st =
      snapshotNextF fuel ⟨ns, st.digests, st.warns ++ [node]⟩ := by
  simp only [List.mem_cons, List.not_mem_nil, or_false] at hty
  rcases hty with hty | hty | hty | hty <;> simp [snapshotNextF, hn, hp, hty]

/-! ## Claims about the snapshot parser -/

/-- Claim C3 (amended): when the nodes stream's next record is a well-formed
file record whose path parses, and the digests stream is exhausted or its
next record's path differs from the nodes record's path, `SnapshotEntries::next`
detects the desynchronization and fails fatally — but by an assertion failure
that aborts the process (`assert_eq!` / `unwrap()`), not by returning a
`StreamDesynchronized` error value to the caller. -/
theorem snapshotNext_desync_aborts {fuel : Nat} {st : SnapState} {node : NodesEntry}
    {ns : List Char} {p : List String}
    (hn : nodesNext st.nodes = (.ok (some node), ns)) (hty : node.ty = 'f')
    (hp : shadowPathParse node.path = some p)
    (hd : (∃ ds, digestsNext st.digests = (.ok none, ds)) ∨
      ∃ dl ds, digestsNext st.digests = (.ok (some dl), ds) ∧ node.path ≠ dl.path) :
    (snapshotNextF (fuel + 1) st).1 = .error .panicked := by
  rcases hd with ⟨ds, hd⟩ | ⟨dl, ds, hd, hne⟩
  · rw [snapshotNextF_file_noDigest hn hty hp hd]
  · rw [snapshotNextF_file_mismatch hn hty hp hd hne]

/-- Witness for `snapshotNext_desync_aborts`: a concrete file record with an
exhausted digests stream. -/
theorem snapshotNext_desync_aborts_witness :
    nodesNext ("f 0644 5 ./a.txt\x00 \x00\n").data =
      (.ok (some ⟨'f', 420, some 5, "./a.txt", ""⟩), []) ∧
    (snapshotNextF 1 ⟨("f 0644 5 ./a.txt\x00 \x00\n").data, [], []⟩).1 =
      .error .panicked :=
  ⟨by decide,
    @snapshotNext_desync_aborts 0 ⟨("f 0644 5 ./a.txt\x00 \x00\n").data, [], []⟩
      ⟨'f', 420, some 5, "./a.txt", ""⟩ [] ["a.txt"]
      (by decide) rfl (by decide) (Or.inl ⟨[], by decide⟩)⟩

/-- Counterexample to claim C3 as stated: on a concrete stream pair with a
path mismatch between the file record and the digests record, the parser's
result models a process abort (`panicked`), not an error value returned to
the immediate caller (`failed`). -/
theorem snapshotNext_desync_counterexample :
    (snapshotNext ⟨("f 0644 5 ./a.txt\x00 \x00\n").data,
        (String.mk (List.replicate 64 'a') ++ " *./b.txt\x00\n").data, []⟩).1 =
      .error .panicked ∧
    (snapshotNext ⟨("f 0644 5 ./a.txt\x00 \x00\n").data,
        (String.mk (List.replicate 64 'a') ++ " *./b.txt\x00\n").data, []⟩).1 ≠
      .error .failed := by
  constructor <;> decide

/-- Claim C7: the two-record scenario stream pair parses to exactly a root
`Tree` entry followed by a `File` entry at path `["a.txt"]` with shadow
`{hash, size 5}` and `executable = false`, and is then exhausted. The digest
is quantified over all 64-character lowercase-hex strings. -/
theorem snapshotNext_scenario {dg : List Char} (hlen : dg.length = 64)
    (hhex : ∀ c ∈ dg, c.isDigit ∨ ('a' ≤ c ∧ c ≤ 'f')) :
    snapshotNext ⟨("d 0755 ? .\x00 \x00\nf 0644 5 ./a.txt\x00 \x00\n").data,
        mkDigestsLine dg ("./a.txt").data, []⟩ =
      (.ok (some ⟨[], .tree⟩),
        ⟨("f 0644 5 ./a.txt\x00 \x00\n").data, mkDigestsLine dg ("./a.txt").data, []⟩) ∧
    snapshotNext ⟨("f 0644 5 ./a.txt\x00 \x00\n").data, mkDigestsLine dg ("./a.txt").data, []⟩ =
      (.ok (some ⟨["a.txt"], .file ⟨⟨dg⟩, some 5⟩ false⟩), ⟨[], [], []⟩) ∧
    snapshotNext ⟨[], [], []⟩ = (.ok none, ⟨[], [], []⟩) := by
  have hdig : digestsNext (mkDigestsLine dg ("./a.txt").data) =
      (.ok (some ⟨⟨dg⟩, "./a.txt"⟩), []) := by
    have := @digestsNext_mk dg ("./a.txt").data []
      ⟨hlen, hhex, by decide, by decide⟩
    simpa using this
  refine ⟨?_, ?_, by decide⟩
  · exact @snapshotNextF_dir
      ("d 0755 ? .\x00 \x00\nf 0644 5 ./a.txt\x00 \x00\n").data.length
      ⟨("d 0755 ? .\x00 \x00\nf 0644 5 ./a.txt\x00 \x00\n").data,
        mkDigestsLine dg ("./a.txt").data, []⟩
      ⟨'d', 493, none, ".", ""⟩ ("f 0644 5 ./a.txt\x00 \x00\n").data []
      (show nodesNext ("d 0755 ? .\x00 \x00\nf 0644 5 ./a.txt\x00 \x00\n").data =
        (.ok (some ⟨'d', 493, none, ".", ""⟩), ("f 0644 5 ./a.txt\x00 \x00\n").data)
        by decide)
      rfl (by decide)
  · have hstep := @snapshotNextF_file
      ("f 0644 5 ./a.txt\x00 \x00\n").data.length
      ⟨("f 0644 5 ./a.txt\x00 \x00\n").data, mkDigestsLine dg ("./a.txt").data, []⟩
      ⟨'f', 420, some 5, "./a.txt", ""⟩ [] [] ["a.txt"] ⟨⟨dg⟩, "./a.txt"⟩ ⟨dg⟩
      (show nodesNext ("f 0644 5 ./a.txt\x00 \x00\n").data =
        (.ok (some ⟨'f', 420, some 5, "./a.txt", ""⟩), []) by decide)
      rfl (by decide) hdig rfl
      (by rw [hashParse, if_pos]; exact ⟨hlen, hhex⟩)
    rw [snapshotNext]
    rw [hstep]
    rfl

theorem snapshotNext_scenario_witness :
    (List.replicate 64 'a').length = 64 ∧
    (∀ c ∈ List.replicate 64 'a', c.isDigit ∨ ('a' ≤ c ∧ c ≤ 'f')) ∧
    snapshotNext ⟨("f 0644 5 ./a.txt\x00 \x00\n").data,
        mkDigestsLine (List.replicate 64 'a') ("./a.txt").data, []⟩ =
      (.ok (some ⟨["a.txt"], .file ⟨⟨List.replicate 64 'a'⟩, some 5⟩ false⟩), ⟨[], [], []⟩) :=
  ⟨by decide, by decide,
    (@snapshotNext_scenario (List.replicate 64 'a') (by decide) (by decide)).2.1⟩

/-- Claim C8 (amended): a well-formed nodes record with an unsupported type
tag (`c`, `b`, `s`, `p`) whose path field parses produces no entry and no
failure: the parser records a warning for it and continues exactly as it
would on the remaining streams. -/
theorem snapshotNext_skips_unsupported {fuel : Nat} {st : SnapState} {node : NodesEntry}
    {ns : List Char} {p : List String}
    (hn : nodesNext st.nodes = (.ok (some node), ns))
    (hty : node.ty ∈ (['c', 'b', 's', 'p'] : List Char))
    (hp : shadowPathParse node.path = some p) :
    snapshotNextF (fuel + 1) st =
      snapshotNextF fuel ⟨ns, st.digests, st.warns ++ [node]⟩ :=
  snapshotNextF_skips hn hty hp

/-- Witness for `snapshotNext_skips_unsupported`: a character-device record is
skipped with a warning and the following directory record still parses. -/
theorem snapshotNext_skips_unsupported_witness :
    nodesNext ("c 0644 ? ./dev\x00 \x00\nd 0755 ? .\x00 \x00\n").data =
      (.ok (some ⟨'c', 420, none, "./dev", ""⟩), ("d 0755 ? .\x00 \x00\n").data) ∧
    snapshotNextF 2 ⟨("c 0644 ? ./dev\x00 \x00\nd 0755 ? .\x00 \x00\n").data, [], []⟩ =
      snapshotNextF 1 ⟨("d 0755 ? .\x00 \x00\n").data, [], [⟨'c', 420, none, "./dev", ""⟩]⟩ :=
  ⟨by decide,
    @snapshotNext_skips_unsupported 1
      ⟨("c 0644 ? ./dev\x00 \x00\nd 0755 ? .\x00 \x00\n").data, [], []⟩
      ⟨'c', 420, none, "./dev", ""⟩ ("d 0755 ? .\x00 \x00\n").data ["dev"]
      (by decide) (by decide) (by decide)⟩

/-- Counterexample to claim C8 as stated: a well-formed character-device
record whose path field is empty (which the path layer rejects) makes
`SnapshotEntries::next` return an error instead of skipping the record, so
not every unsupported-type record is skipped without failing. -/
theorem snapshotNext_skips_counterexample :
    (snapshotNext ⟨("c 0644 ? \x00 \x00\nd 0755 ? .\x00 \x00\n").data, [], []⟩).1 =
      .error .failed := by
  decide

/-! ## Path-accumulator restoration -/

/-- Path-accumulator bookkeeping of the traversal engine: on every `Ok`
return the accumulator is restored — for a `tf`/`go` call to its entry
value, for a single-entry visit to the pushed path (so popping restores the
entry value). -/
theorem travGo_restores (store : Store) :
    ∀ (fuel : Nat) (σ : Type) (cb : Callbacks σ) (req : TravReq σ)
      (eb2 : Option Oid) (s2 : σ) (path2 : List String) (u : Unit),
      travGo store cb fuel req = (eb2, s2, path2, Except.ok u) →
      (match req with
      | .tf _ _ path _ => path2 = path
      | .go _ _ path _ _ => path2 = path
      | .ve _ _ path _ => path2.dropLast = path) := by
  intro fuel
  induction fuel with
  | zero =>
    intro σ cb req eb2 s2 path2 u h
    cases req <;> simp [travGo] at h
  | succ n ih =>
    intro σ cb req eb2 s2 path2 u h
    cases req with
    | tf eb s path oid =>
      rcases hcb : cb.onTree s path oid with ⟨s1, r⟩
      cases r with
      | error e => simp [travGo, hcb] at h
      | ok dec =>
        cases dec with
        | skip =>
          simp only [travGo, hcb, Prod.mk.injEq] at h
          exact h.2.2.1.symm
        | descend =>
          cases hst : store oid with
          | none => simp [travGo, hcb, hst] at h
          | some ob =>
            cases ob with
            | blob c => simp [travGo, hcb, hst] at h
            | tree entries =>
              simp only [travGo, hcb, hst] at h
              exact ih σ cb (.go eb s1 path true entries) _ _ _ _ h
    | go eb s path first entries =>
      cases first with
      | true =>
        cases entries with
        | nil =>
          simp only [travGo, Prod.mk.injEq] at h
          exact h.2.2.1.symm
        | cons e rest =>
          obtain ⟨nm, md, oo⟩ := e
          cases nm with
          | bad => simp [travGo] at h
          | component c => simp [travGo] at h
          | marker =>
            by_cases hmd : md = FileMode.blob
            · cases heb : eb with
              | some x =>
                by_cases hx : oo = x
                · simp only [travGo, hmd, heb, if_pos hx, if_pos rfl] at h
                  exact ih σ cb (.go (some x) s path false rest) _ _ _ _ h
                · simp [travGo, hmd, heb, hx] at h
              | none =>
                cases hst : store oo with
                | none => simp [travGo, hmd, heb, hst] at h
                | some ob =>
                  cases ob with
                  | blob cc =>
                    by_cases hc : cc.length = 0
                    · simp only [travGo, hmd, heb, hst, if_pos hc, if_pos rfl] at h
                      exact ih σ cb (.go (some oo) s path false rest) _ _ _ _ h
                    · simp [travGo, hmd, heb, hst, hc] at h
                  | tree es => simp [travGo, hmd, heb, hst] at h
            · simp [travGo, hmd] at h
      | false =>
        cases entries with
        | nil =>
          simp only [travGo, Prod.mk.injEq] at h
          exact h.2.2.1.symm
        | cons e rest =>
          rcases hv : travGo store cb n (.ve eb s path e) with ⟨eb1, s1, p1, r1⟩
          cases r1 with
          | error er => simp [travGo, hv] at h
          | ok u1 =>
            simp only [travGo, hv] at h
            have hrec := ih σ cb (.go eb1 s1 p1.dropLast false rest) _ _ _ _ h
            have hvp := ih σ cb (.ve eb s path e) _ _ _ _ hv
            simp only at hrec hvp
            rw [hrec, hvp]
    | ve eb s path e =>
      obtain ⟨nm, md, oo⟩ := e
      cases nm with
      | bad => simp [travGo] at h
      | marker => simp [travGo] at h
      | component c =>
        cases md with
        | link =>
          rcases hcb : cb.onLink s (path ++ [c]) oo with ⟨s1, r⟩
          cases r with
          | error er => simp [travGo, kindOf, hcb] at h
          | ok _ =>
            simp only [travGo, kindOf, hcb, reduceCtorEq, ite_true, ite_false] at h
            simp only [Prod.mk.injEq] at h
            rw [← h.2.2.1, List.dropLast_concat]
        | blob =>
          rcases hcb : cb.onBlob s (path ++ [c]) oo true with ⟨s1, r⟩
          cases r with
          | error er => simp [travGo, kindOf, hcb] at h
          | ok _ =>
            simp only [travGo, kindOf, hcb, reduceCtorEq, ite_true, ite_false] at h
            simp only [Prod.mk.injEq] at h
            rw [← h.2.2.1, List.dropLast_concat]
        | blobExecutable =>
          rcases hcb : cb.onBlob s (path ++ [c]) oo false with ⟨s1, r⟩
          cases r with
          | error er => simp [travGo, kindOf, hcb] at h
          | ok _ =>
            simp only [travGo, kindOf, hcb, reduceCtorEq, ite_true, ite_false] at h
            simp only [Prod.mk.injEq] at h
            rw [← h.2.2.1, List.dropLast_concat]
        | blobGroupWritable => simp [travGo, kindOf] at h
        | tree =>
          simp only [travGo, kindOf] at h
          have := ih σ cb (.tf eb s (path ++ [c]) oo) _ _ _ _ h
          simp only at this
          rw [this, List.dropLast_concat]
        | commit => simp [travGo, kindOf] at h

/-- Claim C4 (amended): the mutable path accumulator is restored to its entry
value whenever `traverse_from` returns `Ok`; on an `Err` return it may retain
the components pushed along the failing path, because the `?` early returns
skip the `path.pop()`. -/
theorem traverseFrom_restores_path {σ : Type} {store : Store} {cb : Callbacks σ}
    {fuel : Nat} {eb : Option Oid} {s : σ} {path : List String} {oid : Oid}
    {eb2 : Option Oid} {s2 : σ} {path2 : List String}
    (h : traverseFrom store cb fuel eb s path oid = (eb2, s2, path2, .ok ())) :
    path2 = path :=
  travGo_restores store fuel σ cb (.tf eb s path oid) eb2 s2 path2 () h

/-- Witness for `traverseFrom_restores_path` at a concrete store, visitor,
and non-empty starting path. -/
theorem traverseFrom_restores_path_witness :
    traverseFrom storeSmall cbNoop 8 none () ["p"] 0 = (some 1, (), ["p"], .ok ()) ∧
    (["p"] : List String) = ["p"] :=
  ⟨by decide,
    @traverseFrom_restores_path Unit storeSmall cbNoop 8 none () ["p"] 0
      (some 1) () ["p"] (by decide)⟩

/-- Claim C1 (code evaluation at the failing input): planting a `File` entry
with `executable = false` writes mode `Blob` and with `executable = true`
writes `BlobExecutable` (the write side of the claim holds), but the
traversal engine reports an entry stored with mode `Blob` to the visitor
with `executable = true` and one stored with `BlobExecutable` with
`executable = false` — the read side of the 1:1 correspondence is inverted
in `Traverser::traverse_from`. -/
theorem fileMode_executable_inverted :
    (plantInner (GObj.blob []) 1
        ⟨["a"], .file ⟨⟨List.replicate 64 'a'⟩, some 5⟩ false⟩ []).map (fun r => r.1.1) =
      some FileMode.blob ∧
    (plantInner (GObj.blob []) 1
        ⟨["a"], .file ⟨⟨List.replicate 64 'a'⟩, some 5⟩ true⟩ []).map (fun r => r.1.1) =
      some FileMode.blobExecutable ∧
    travRec storeSmall 8 0 = (some 1, ([2, 0], [.tree 0, .blob 2 true]), [], .ok ()) ∧
    travRec storeSmallExec 8 0 = (some 1, ([2, 0], [.tree 0, .blob 2 false]), [], .ok ()) := by
  refine ⟨by decide, by decide, by decide, by decide⟩

/-- Claim C5: a tree whose first entry resolves but is not a valid marker —
wrong decoded name, wrong mode, or a non-empty blob — fails `check` with
`InvalidTreeStructure`. (A first entry whose name fails decoding or whose
object is missing fails the traversal too, but with the decode or
object-read error.) -/
theorem check_invalid_first_entry {store : Store} {fuel : Nat} {root : Oid}
    {e : TreeEntry} {es : List TreeEntry}
    (hroot : store root = some (.tree (e :: es)))
    (hname : e.name ≠ .bad)
    (hres : e.name = .marker → e.mode = .blob → ∃ c, store e.oid = some (Obj.blob c))
    (hinvalid : ¬(e.name = RawName.marker ∧ e.mode = FileMode.blob ∧
      store e.oid = some (Obj.blob []))) :
    (check store (fuel + 2) root).2.2.2 = .error .invalidTreeStructure := by
  have hstep : check store (fuel + 2) root =
      travGo store (onUnique (checkCallbacks store)) (fuel + 1)
        (.go none ([root], ()) [] true (e :: es)) := by
    simp [check, traverse, traverseFrom, travGo, onUnique, checkCallbacks, hroot]
  rw [hstep]
  cases hn : e.name with
  | bad => exact absurd hn hname
  | component c => simp [travGo, hn]
  | marker =>
    by_cases hmd : e.mode = FileMode.blob
    · obtain ⟨c, hc⟩ := hres hn hmd
      have hne : c ≠ [] := by
        intro hcc
        exact hinvalid ⟨hn, hmd, hcc ▸ hc⟩
      have hlen : ¬(c.length = 0) := by simpa using hne
      simp [travGo, hn, hmd, hc, hlen]
    · simp [travGo, hn, hmd]

/-- Witness for `check_invalid_first_entry`: a concrete store whose root
tree's first entry is a real component instead of the marker. -/
theorem check_invalid_first_entry_witness :
    storeBadMarker 0 = some (.tree [⟨.component "z", .blob, 1⟩]) ∧
    (check storeBadMarker 2 0).2.2.2 = .error .invalidTreeStructure :=
  ⟨by decide,
    @check_invalid_first_entry storeBadMarker 0 0 ⟨.component "z", .blob, 1⟩ []
      (by decide) (by decide) (fun h => absurd h (by decide)) (by decide)⟩

/-- Counterexample to claim C4 as stated: with a visitor whose `on_blob`
fails, `traverse_from` returns `Err` with the path accumulator still holding
the failing entry's component — it is not restored to its entry value. -/
theorem traverseFrom_restores_path_counterexample :
    traverseFrom storeSmall cbFailBlob 8 none () [] 0 =
      (some 1, (), ["a"], .error (.callback 7)) ∧
    (["a"] : List String) ≠ [] := by
  constructor <;> decide

/-! ## Dedup adapter invariants -/

theorem uniquePost_refl {seen : List Oid} {evs : List VisitEvent} :
    UniquePost seen evs seen evs := by
  refine ⟨fun o h => h, ⟨[], by simp⟩, fun h1 h2 => ⟨h1, h2⟩⟩

theorem uniquePost_trans {s0 s1 s2 : List Oid} {e0 e1 e2 : List VisitEvent}
    (h01 : UniquePost s0 e0 s1 e1) (h12 : UniquePost s1 e1 s2 e2) :
    UniquePost s0 e0 s2 e2 := by
  obtain ⟨m01, ⟨f1, hf1, hiff1⟩, p01⟩ := h01
  obtain ⟨m12, ⟨f2, hf2, hiff2⟩, p12⟩ := h12
  refine ⟨fun o h => m12 o (m01 o h), ⟨f1 ++ f2, by rw [hf2, hf1, List.append_assoc], ?_⟩, ?_⟩
  · intro o
    rw [hiff2 o, hiff1 o]
    simp only [List.map_append, List.mem_append]
    tauto
  · intro h1 h2
    obtain ⟨h1a, h2a⟩ := p01 h1 h2
    exact p12 h1a h2a

theorem uniquePost_insert {seen : List Oid} {evs : List VisitEvent}
    {o : Oid} {ev : VisitEvent} (hmem : o ∉ seen) (hoid : ev.oid = o) :
    UniquePost seen evs (o :: seen) (evs ++ [ev]) := by
  refine ⟨fun x h => List.mem_cons_of_mem _ h, ⟨[ev], rfl, ?_⟩, ?_⟩
  · intro x
    simp [hoid, or_comm]
  · intro h1 h2
    constructor
    · simp only [List.map_append, List.map_cons, List.map_nil]
      rw [List.nodup_append]
      refine ⟨h1, by simp, ?_⟩
      intro x hx
      simp only [List.mem_cons, List.not_mem_nil, or_false, List.mem_singleton, hoid]
      intro hxo
      exact hmem (hxo ▸ h2 x hx)
    · intro x hx
      simp only [List.map_append, List.mem_append, List.map_cons, List.map_nil,
        List.mem_singleton, hoid] at hx
      rcases hx with hx | hx
      · exact List.mem_cons_of_mem _ (h2 x hx)
      · simp [hx]

/-- The dedup adapter around the recording visitor satisfies `UniquePost` on
every traversal step, successful or not: in particular the inner visitor's
log never repeats an address, across all three hooks. -/
theorem travGo_unique_events (store : Store) :
    ∀ (fuel : Nat) (req : TravReq RecSt) (eb2 : Option Oid) (seen2 : List Oid)
      (evs2 : List VisitEvent) (path2 : List String) (r : Except TravErr Unit),
      travGo store (onUnique recorder) fuel req = (eb2, (seen2, evs2), path2, r) →
      UniquePost req.rstate.1 req.rstate.2 seen2 evs2 := by
  intro fuel
  induction fuel with
  | zero =>
    intro req eb2 seen2 evs2 path2 r h
    cases req with
    | tf eb s path oid =>
      obtain ⟨seen, evs⟩ := s
      simp only [travGo, Prod.mk.injEq] at h
      simp only [TravReq.rstate]
      rw [← h.2.1.1, ← h.2.1.2]
      exact uniquePost_refl
    | go eb s path first entries =>
      obtain ⟨seen, evs⟩ := s
      simp only [travGo, Prod.mk.injEq] at h
      simp only [TravReq.rstate]
      rw [← h.2.1.1, ← h.2.1.2]
      exact uniquePost_refl
    | ve eb s path e =>
      obtain ⟨seen, evs⟩ := s
      simp only [travGo, Prod.mk.injEq] at h
      simp only [TravReq.rstate]
      rw [← h.2.1.1, ← h.2.1.2]
      exact uniquePost_refl
  | succ n ih =>
    intro req eb2 seen2 evs2 path2 r h
    cases req with
    | tf eb s path oid =>
      obtain ⟨seen, evs⟩ := s
      simp only [TravReq.rstate]
      by_cases hmem : oid ∈ seen
      · have hcb : (onUnique recorder).onTree (seen, evs) path oid =
            ((seen, evs), .ok .skip) := by
          simp [onUnique, hmem]
        simp only [travGo, hcb, Prod.mk.injEq] at h
        rw [← h.2.1.1, ← h.2.1.2]
        exact uniquePost_refl
      · have hcb : (onUnique recorder).onTree (seen, evs) path oid =
            ((oid :: seen, evs ++ [.tree oid]), .ok .descend) := by
          simp [onUnique, recorder, hmem]
        have hstep : UniquePost seen evs (oid :: seen) (evs ++ [.tree oid]) :=
          uniquePost_insert hmem rfl
        cases hst : store oid with
        | none =>
          simp only [travGo, hcb, hst, Prod.mk.injEq] at h
          rw [← h.2.1.1, ← h.2.1.2]
          exact hstep
        | some ob =>
          cases ob with
          | blob c =>
            simp only [travGo, hcb, hst, Prod.mk.injEq] at h
            rw [← h.2.1.1, ← h.2.1.2]
            exact hstep
          | tree entries =>
            simp only [travGo, hcb, hst] at h
            have hrec := ih (.go eb (oid :: seen, evs ++ [.tree oid]) path true entries)
              _ _ _ _ _ h
            simp only [TravReq.rstate] at hrec
            exact uniquePost_trans hstep hrec
    | go eb s path first entries =>
      obtain ⟨seen, evs⟩ := s
      simp only [TravReq.rstate]
      cases first with
      | true =>
        cases entries with
        | nil =>
          simp only [travGo, Prod.mk.injEq] at h
          rw [← h.2.1.1, ← h.2.1.2]
          exact uniquePost_refl
        | cons e rest =>
          obtain ⟨nm, md, oo⟩ := e
          cases nm with
          | bad =>
            simp only [travGo, Prod.mk.injEq] at h
            rw [← h.2.1.1, ← h.2.1.2]
            exact uniquePost_refl
          | component c =>
            simp only [travGo, Prod.mk.injEq] at h
            rw [← h.2.1.1, ← h.2.1.2]
            exact uniquePost_refl
          | marker =>
            by_cases hmd : md = FileMode.blob
            · cases heb : eb with
              | some x =>
                by_cases hx : oo = x
                · simp only [travGo, hmd, heb, ite_true, if_pos hx] at h
                  exact ih (.go (some x) (seen, evs) path false rest) _ _ _ _ _ h
                · simp only [travGo, hmd, heb, ite_true, if_neg hx, Prod.mk.injEq] at h
                  rw [← h.2.1.1, ← h.2.1.2]
                  exact uniquePost_refl
              | none =>
                cases hst : store oo with
                | none =>
                  simp only [travGo, hmd, heb, ite_true, hst, Prod.mk.injEq] at h
                  rw [← h.2.1.1, ← h.2.1.2]
                  exact uniquePost_refl
                | some ob =>
                  cases ob with
                  | blob cc =>
                    by_cases hc : cc.length = 0
                    · simp only [travGo, hmd, heb, ite_true, hst, if_pos hc] at h
                      exact ih (.go (some oo) (seen, evs) path false rest) _ _ _ _ _ h
                    · simp only [travGo, hmd, heb, ite_true, hst, if_neg hc,
                        Prod.mk.injEq] at h
                      rw [← h.2.1.1, ← h.2.1.2]
                      exact uniquePost_refl
                  | tree es =>
                    simp only [travGo, hmd, heb, ite_true, hst, Prod.mk.injEq] at h
                    rw [← h.2.1.1, ← h.2.1.2]
                    exact uniquePost_refl
            · simp only [travGo, if_neg hmd, Prod.mk.injEq] at h
              rw [← h.2.1.1, ← h.2.1.2]
              exact uniquePost_refl
      | false =>
        cases entries with
        | nil =>
          simp only [travGo, Prod.mk.injEq] at h
          rw [← h.2.1.1, ← h.2.1.2]
          exact uniquePost_refl
        | cons e rest =>
          rcases hv : travGo store (onUnique recorder) n (.ve eb (seen, evs) path e) with
            ⟨eb1, s1, p1, r1⟩
          obtain ⟨seen1, evs1⟩ := s1
          have hpost1 : UniquePost seen evs seen1 evs1 :=
            ih (.ve eb (seen, evs) path e) _ _ _ _ _ hv
          cases r1 with
          | error er =>
            simp only [travGo, hv, Prod.mk.injEq] at h
            rw [← h.2.1.1, ← h.2.1.2]
            exact hpost1
          | ok u1 =>
            simp only [travGo, hv] at h
            exact uniquePost_trans hpost1
              (ih (.go eb1 (seen1, evs1) p1.dropLast false rest) _ _ _ _ _ h)
    | ve eb s path e =>
      obtain ⟨seen, evs⟩ := s
      obtain ⟨nm, md, oo⟩ := e
      simp only [TravReq.rstate]
      cases nm with
      | bad =>
        simp only [travGo, Prod.mk.injEq] at h
        rw [← h.2.1.1, ← h.2.1.2]
        exact uniquePost_refl
      | marker =>
        simp only [travGo, Prod.mk.injEq] at h
        rw [← h.2.1.1, ← h.2.1.2]
        exact uniquePost_refl
      | component c =>
        cases md with
        | link =>
          by_cases hmem : oo ∈ seen
          · have hcb : (onUnique recorder).onLink (seen, evs) (path ++ [c]) oo =
                ((seen, evs), .ok ()) := by
              simp [onUnique, hmem]
            simp only [travGo, kindOf, hcb, reduceCtorEq, ite_true, ite_false,
              Prod.mk.injEq] at h
            rw [← h.2.1.1, ← h.2.1.2]
            exact uniquePost_refl
          · have hcb : (onUnique recorder).onLink (seen, evs) (path ++ [c]) oo =
                ((oo :: seen, evs ++ [.link oo]), .ok ()) := by
              simp [onUnique, recorder, hmem]
            simp only [travGo, kindOf, hcb, reduceCtorEq, ite_true, ite_false,
              Prod.mk.injEq] at h
            rw [← h.2.1.1, ← h.2.1.2]
            exact uniquePost_insert hmem rfl
        | blob =>
          by_cases hmem : oo ∈ seen
          · have hcb : (onUnique recorder).onBlob (seen, evs) (path ++ [c]) oo true =
                ((seen, evs), .ok ()) := by
              simp [onUnique, hmem]
            simp only [travGo, kindOf, hcb, reduceCtorEq, ite_true, ite_false,
              Prod.mk.injEq] at h
            rw [← h.2.1.1, ← h.2.1.2]
            exact uniquePost_refl
          · have hcb : (onUnique recorder).onBlob (seen, evs) (path ++ [c]) oo true =
                ((oo :: seen, evs ++ [.blob oo true]), .ok ()) := by
              simp [onUnique, recorder, hmem]
            simp only [travGo, kindOf, hcb, reduceCtorEq, ite_true, ite_false,
              Prod.mk.injEq] at h
            rw [← h.2.1.1, ← h.2.1.2]
            exact uniquePost_insert hmem rfl
        | blobExecutable =>
          by_cases hmem : oo ∈ seen
          · have hcb : (onUnique recorder).onBlob (seen, evs) (path ++ [c]) oo false =
                ((seen, evs), .ok ()) := by
              simp [onUnique, hmem]
            simp only [travGo, kindOf, hcb, reduceCtorEq, ite_true, ite_false,
              Prod.mk.injEq] at h
            rw [← h.2.1.1, ← h.2.1.2]
            exact uniquePost_refl
          · have hcb : (onUnique recorder).onBlob (seen, evs) (path ++ [c]) oo false =
                ((oo :: seen, evs ++ [.blob oo false]), .ok ()) := by
              simp [onUnique, recorder, hmem]
            simp only [travGo, kindOf, hcb, reduceCtorEq, ite_true, ite_false,
              Prod.mk.injEq] at h
            rw [← h.2.1.1, ← h.2.1.2]
            exact uniquePost_insert hmem rfl
        | blobGroupWritable =>
          simp only [travGo, kindOf, reduceCtorEq, ite_false, ite_true,
            Prod.mk.injEq] at h
          rw [← h.2.1.1, ← h.2.1.2]
          exact uniquePost_refl
        | tree =>
          simp only [travGo, kindOf] at h
          exact ih (.tf eb (seen, evs) (path ++ [c]) oo) _ _ _ _ _ h
        | commit =>
          simp only [travGo, kindOf, Prod.mk.injEq] at h
          rw [← h.2.1.1, ← h.2.1.2]
          exact uniquePost_refl


/-- Claim C10: the dedup adapter keeps a single seen-set shared across all
object kinds, so over any traversal (complete or not) the inner visitor's
invocation log never contains two events — of any kinds — for the same
address: an address first seen as a blob suppresses a later link (or tree)
visit of the same address entirely, and vice versa. -/
theorem onUnique_shared_across_kinds {store : Store} {fuel : Nat} {root : Oid}
    {eb2 : Option Oid} {seen2 : List Oid} {evs2 : List VisitEvent}
    {path2 : List String} {r : Except TravErr Unit}
    (h : travRec store fuel root = (eb2, (seen2, evs2), path2, r)) :
    (evs2.map VisitEvent.oid).Nodup := by
  have hu := travGo_unique_events store fuel (.tf none ([], []) [] root)
    eb2 seen2 evs2 path2 r h
  simp only [TravReq.rstate] at hu
  exact (hu.2.2 (by simp) (by simp)).1

/-- Witness for `onUnique_shared_across_kinds`: the same blob address is
reachable through a file entry and a link entry; only the blob hook fires
(no link event at all), and the log's addresses are distinct. -/
theorem onUnique_shared_across_kinds_witness :
    travRec storeCrossKind 8 0 =
      (some 1, ([2, 0], [.tree 0, .blob 2 true]), [], .ok ()) ∧
    (([VisitEvent.tree 0, VisitEvent.blob 2 true].map VisitEvent.oid)).Nodup :=
  ⟨by decide,
    @onUnique_shared_across_kinds storeCrossKind 8 0 (some 1) [2, 0]
      [.tree 0, .blob 2 true] [] (.ok ()) (by decide)⟩

/-! ## Reachability -/

theorem reachTree_self (store : Store) (g : Nat) (t : Oid) :
    t ∈ reachTree store g t := by
  cases g <;> simp [reachTree]

theorem reachTree_mono (store : Store) :
    ∀ (g g2 : Nat), g ≤ g2 → ∀ (t o : Oid), o ∈ reachTree store g t →
      o ∈ reachTree store g2 t := by
  intro g
  induction g with
  | zero =>
    intro g2 _ t o ho
    simp only [reachTree, List.mem_singleton] at ho
    exact ho ▸ reachTree_self store g2 t
  | succ m ih =>
    intro g2 hle t o ho
    obtain ⟨m2, rfl⟩ : ∃ m2, g2 = m2 + 1 := ⟨g2 - 1, by omega⟩
    cases hst : store t with
    | none =>
      simp only [reachTree, hst] at ho ⊢
      exact ho
    | some ob =>
      cases ob with
      | blob c =>
        simp only [reachTree, hst] at ho ⊢
        exact ho
      | tree es =>
        simp only [reachTree, hst, List.mem_cons, List.mem_flatMap] at ho ⊢
        rcases ho with ho | ⟨e, he, hoe⟩
        · exact Or.inl ho
        · right
          refine ⟨e, he, ?_⟩
          by_cases hk : kindOf e.mode = ObjectType.tree
          · rw [if_pos hk] at hoe ⊢
            exact ih m2 (by omega) e.oid o hoe
          · rw [if_neg hk] at hoe ⊢
            exact hoe

theorem entriesReach_mono (store : Store) {g g2 : Nat} (hle : g ≤ g2)
    {es : List TreeEntry} {o : Oid} (ho : o ∈ entriesReach store g es) :
    o ∈ entriesReach store g2 es := by
  simp only [entriesReach, List.mem_flatMap] at ho ⊢
  obtain ⟨e, he, hoe⟩ := ho
  refine ⟨e, he, ?_⟩
  by_cases hk : kindOf e.mode = ObjectType.tree
  · rw [if_pos hk] at hoe ⊢
    exact reachTree_mono store g g2 hle e.oid o hoe
  · rw [if_neg hk] at hoe ⊢
    exact hoe

theorem entriesReach_cons (store : Store) (g : Nat) (e : TreeEntry)
    (es : List TreeEntry) :
    entriesReach store g (e :: es) =
      (if kindOf e.mode = ObjectType.tree then reachTree store g e.oid else [e.oid]) ++
        entriesReach store g es := by
  simp [entriesReach]

theorem closedNew_vacuous {store : Store} {seen : List Oid} :
    ClosedNew store seen seen := by
  intro t ht htn
  exact absurd ht htn

theorem closedNew_trans {store : Store} {s0 s1 s2 : List Oid}
    (hsub : ∀ o ∈ s1, o ∈ s2)
    (h01 : ClosedNew store s0 s1) (h12 : ClosedNew store s1 s2) :
    ClosedNew store s0 s2 := by
  intro t ht htn es2 hst e he
  by_cases h1 : t ∈ s1
  · exact hsub _ (h01 t h1 htn es2 hst e he)
  · exact h12 t ht h1 es2 hst e he

/-- Reach-completeness and soundness of the dedup-wrapped recording
traversal: on a successful step, every address newly added to the seen-set
is reachable from the request (bounded by its fuel), every pending entry
target ends up seen, and every newly seen tree is closed (all its entry
targets are seen). `WellTyped` rules out a tree object being seen through a
blob-kind entry, which would leave it unexpanded. -/
theorem travGo_reach_closed (store : Store) (hWT : WellTyped store) :
    ∀ (fuel : Nat) (req : TravReq RecSt) (eb2 : Option Oid) (seen2 : List Oid)
      (evs2 : List VisitEvent) (path2 : List String) (u : Unit),
      ReqTyped store req →
      travGo store (onUnique recorder) fuel req = (eb2, (seen2, evs2), path2, .ok u) →
      ClosedNew store req.rstate.1 seen2 ∧
      (∀ e ∈ req.pending, e.oid ∈ seen2) ∧
      (match req with
      | .tf _ s _ oid => oid ∈ seen2 ∧
          ∀ o ∈ seen2, o ∉ s.1 → o ∈ reachTree store fuel oid
      | .go _ s _ first entries =>
          ∀ o ∈ seen2, o ∉ s.1 →
            o ∈ entriesReach store fuel (if first then entries.drop 1 else entries)
      | .ve _ s _ e => ∀ o ∈ seen2, o ∉ s.1 → o ∈ entriesReach store fuel [e]) := by
  intro fuel
  induction fuel with
  | zero =>
    intro req eb2 seen2 evs2 path2 u hT h
    cases req <;> simp [travGo] at h
  | succ n ih =>
    intro req eb2 seen2 evs2 path2 u hT h
    cases req with
    | tf eb s path oid =>
      obtain ⟨seen, evs⟩ := s
      simp only [TravReq.rstate, TravReq.pending]
      by_cases hmem : oid ∈ seen
      · have hcb : (onUnique recorder).onTree (seen, evs) path oid =
            ((seen, evs), .ok .skip) := by
          simp [onUnique, hmem]
        simp only [travGo, hcb, Prod.mk.injEq] at h
        rw [← h.2.1.1]
        refine ⟨closedNew_vacuous, by simp, hmem, ?_⟩
        intro o ho hno
        exact absurd ho hno
      · have hcb : (onUnique recorder).onTree (seen, evs) path oid =
            ((oid :: seen, evs ++ [.tree oid]), .ok .descend) := by
          simp [onUnique, recorder, hmem]
        cases hst : store oid with
        | none => simp [travGo, hcb, hst] at h
        | some ob =>
          cases ob with
          | blob c => simp [travGo, hcb, hst] at h
          | tree entries =>
            simp only [travGo, hcb, hst] at h
            have hT2 : ReqTyped store
                (TravReq.go eb (oid :: seen, evs ++ [.tree oid]) path true entries :
                  TravReq RecSt) := by
              intro e he hk
              simp only [TravReq.pending, if_pos rfl] at he
              exact hWT oid entries hst e he hk
            obtain ⟨hcl, hpend, hreach⟩ :=
              ih (.go eb (oid :: seen, evs ++ [.tree oid]) path true entries)
                _ _ _ _ _ hT2 h
            simp only [TravReq.rstate, TravReq.pending, if_pos rfl] at hcl hpend hreach
            have hmono := (travGo_unique_events store n
              (.go eb (oid :: seen, evs ++ [.tree oid]) path true entries)
              _ _ _ _ _ h).1
            simp only [TravReq.rstate] at hmono
            have hoid2 : oid ∈ seen2 := hmono oid (by simp)
            refine ⟨?_, by simp, hoid2, ?_⟩
            · intro t ht htn es2 hst2 e he
              by_cases hto : t = oid
              · subst hto
                rw [hst] at hst2
                obtain rfl : entries = es2 := by
                  injection hst2 with hst3
                  exact Obj.tree.inj hst3
                exact hpend e he
              · have htn2 : t ∉ oid :: seen := by
                  simp only [List.mem_cons, not_or]
                  exact ⟨hto, htn⟩
                exact hcl t ht htn2 es2 hst2 e he
            · intro o ho hno
              by_cases hoo : o = oid
              · subst hoo
                exact reachTree_self store (n + 1) o
              · have hno2 : o ∉ oid :: seen := by
                  simp only [List.mem_cons, not_or]
                  exact ⟨hoo, hno⟩
                have := hreach o ho hno2
                simp only [reachTree, hst, List.mem_cons]
                right
                simpa [entriesReach] using this
    | go eb s path first entries =>
      obtain ⟨seen, evs⟩ := s
      simp only [TravReq.rstate, TravReq.pending]
      cases first with
      | true =>
        cases entries with
        | nil =>
          simp only [travGo, Prod.mk.injEq] at h
          rw [← h.2.1.1]
          refine ⟨closedNew_vacuous, by simp, ?_⟩
          intro o ho hno
          exact absurd ho hno
        | cons e rest =>
          obtain ⟨nm, md, oo⟩ := e
          cases nm with
          | bad => simp [travGo] at h
          | component c => simp [travGo] at h
          | marker =>
            have hcont : ∀ eb1 : Option Oid,
                travGo store (onUnique recorder) n
                  (.go eb1 (seen, evs) path false rest) =
                    (eb2, (seen2, evs2), path2, .ok u) →
                ClosedNew store seen seen2 ∧
                (∀ e2 ∈ (⟨RawName.marker, md, oo⟩ :: rest : List TreeEntry).drop 1,
                  e2.oid ∈ seen2) ∧
                ∀ o ∈ seen2, o ∉ seen →
                  o ∈ entriesReach store (n + 1)
                    ((⟨RawName.marker, md, oo⟩ :: rest : List TreeEntry).drop 1) := by
              intro eb1 h2
              have hT2 : ReqTyped store
                  (TravReq.go eb1 (seen, evs) path false rest : TravReq RecSt) := by
                intro e2 he2 hk2
                simp only [TravReq.pending] at he2
                refine hT e2 ?_ hk2
                simp only [TravReq.pending, if_pos rfl, List.drop_succ_cons,
                  List.drop_zero]
                exact he2
              obtain ⟨hcl, hpend, hreach⟩ :=
                ih (.go eb1 (seen, evs) path false rest) _ _ _ _ _ hT2 h2
              simp only [TravReq.rstate, TravReq.pending] at hcl hpend hreach
              refine ⟨hcl, by simpa using hpend, ?_⟩
              intro o ho hno
              simp only [List.drop_succ_cons, List.drop_zero]
              exact entriesReach_mono store (Nat.le_succ n) (hreach o ho hno)
            by_cases hmd : md = FileMode.blob
            · cases heb : eb with
              | some x =>
                by_cases hx : oo = x
                · simp only [travGo, hmd, heb, ite_true, if_pos hx] at h
                  exact hcont eb (heb ▸ h)
                · simp [travGo, hmd, heb, ite_true, if_neg hx] at h
              | none =>
                cases hst : store oo with
                | none => simp [travGo, hmd, heb, ite_true, hst] at h
                | some ob =>
                  cases ob with
                  | blob cc =>
                    by_cases hc : cc.length = 0
                    · simp only [travGo, hmd, heb, ite_true, hst, if_pos hc] at h
                      exact hcont (some oo) h
                    · have hc2 : cc ≠ [] := by simpa using hc
                      simp [travGo, hmd, heb, ite_true, hst, hc2] at h
                  | tree es2 => simp [travGo, hmd, heb, ite_true, hst] at h
            · simp only [travGo] at h
              rw [if_neg hmd] at h
              simp at h
      | false =>
        cases entries with
        | nil =>
          simp only [travGo, Prod.mk.injEq] at h
          rw [← h.2.1.1]
          refine ⟨closedNew_vacuous, by simp, ?_⟩
          intro o ho hno
          exact absurd ho hno
        | cons e rest =>
          rcases hv : travGo store (onUnique recorder) n (.ve eb (seen, evs) path e) with
            ⟨eb1, s1, p1, r1⟩
          obtain ⟨seen1, evs1⟩ := s1
          cases r1 with
          | error er => simp [travGo, hv] at h
          | ok u1 =>
            simp only [travGo, hv] at h
            have hTe : ReqTyped store (TravReq.ve eb (seen, evs) path e : TravReq RecSt) := by
              intro e2 he2 hk2
              simp only [TravReq.pending, List.mem_singleton] at he2
              exact hT e2 (by simp [TravReq.pending, he2]) hk2
            obtain ⟨hclv, hpendv, hreachv⟩ :=
              ih (.ve eb (seen, evs) path e) _ _ _ _ _ hTe hv
            simp only [TravReq.rstate, TravReq.pending] at hclv hpendv hreachv
            have hTg : ReqTyped store
                (TravReq.go eb1 (seen1, evs1) p1.dropLast false rest : TravReq RecSt) := by
              intro e2 he2 hk2
              have he3 : e2 ∈ rest := by simpa [TravReq.pending] using he2
              refine hT e2 ?_ hk2
              show e2 ∈ (e :: rest : List TreeEntry)
              exact List.mem_cons_of_mem _ he3
            obtain ⟨hclg, hpendg, hreachg⟩ :=
              ih (.go eb1 (seen1, evs1) p1.dropLast false rest) _ _ _ _ _ hTg h
            simp only [TravReq.rstate, TravReq.pending] at hclg hpendg hreachg
            have hm1 := (travGo_unique_events store n (.ve eb (seen, evs) path e)
              _ _ _ _ _ hv).1
            have hm2 := (travGo_unique_events store n
              (.go eb1 (seen1, evs1) p1.dropLast false rest) _ _ _ _ _ h).1
            simp only [TravReq.rstate] at hm1 hm2
            refine ⟨closedNew_trans hm2 hclv hclg, ?_, ?_⟩
            · intro e2 he2
              rcases List.mem_cons.mp he2 with rfl | he2
              · exact hm2 _ (hpendv e2 (by simp))
              · exact hpendg e2 he2
            · intro o ho hno
              show o ∈ entriesReach store (n + 1) (e :: rest)
              rw [entriesReach_cons]
              by_cases h1 : o ∈ seen1
              · have := hreachv o h1 hno
                rw [List.mem_append]
                left
                have h2 := entriesReach_mono store (Nat.le_succ n) this
                simpa [entriesReach] using h2
              · have := hreachg o ho h1
                rw [List.mem_append]
                right
                exact entriesReach_mono store (Nat.le_succ n) this
    | ve eb s path e =>
      obtain ⟨seen, evs⟩ := s
      obtain ⟨nm, md, oo⟩ := e
      simp only [TravReq.rstate, TravReq.pending]
      cases nm with
      | bad => simp [travGo] at h
      | marker => simp [travGo] at h
      | component c =>
        have hblobcase : ∀ (ev : VisitEvent) (hkind : kindOf md = ObjectType.blob),
            ev.oid = oo →
            (oo ∈ seen → (eb2, (seen2, evs2), path2) = (eb, (seen, evs), path ++ [c])) →
            True := fun _ _ _ _ => trivial
        cases md with
        | link =>
          by_cases hmem : oo ∈ seen
          · have hcb : (onUnique recorder).onLink (seen, evs) (path ++ [c]) oo =
                ((seen, evs), .ok ()) := by
              simp [onUnique, hmem]
            simp only [travGo, kindOf, hcb, reduceCtorEq, ite_true, ite_false,
              Prod.mk.injEq] at h
            rw [← h.2.1.1]
            refine ⟨closedNew_vacuous, by simpa using hmem, ?_⟩
            intro o ho hno
            exact absurd ho hno
          · have hcb : (onUnique recorder).onLink (seen, evs) (path ++ [c]) oo =
                ((oo :: seen, evs ++ [.link oo]), .ok ()) := by
              simp [onUnique, recorder, hmem]
            simp only [travGo, kindOf, hcb, reduceCtorEq, ite_true, ite_false,
              Prod.mk.injEq] at h
            rw [← h.2.1.1]
            obtain ⟨cc, hcc⟩ := hT ⟨RawName.component c, FileMode.link, oo⟩
              (by simp [TravReq.pending]) (by simp [kindOf])
            refine ⟨?_, by simp, ?_⟩
            · intro t ht htn es2 hst2 e2 he2
              rcases List.mem_cons.mp ht with rfl | ht2
              · rw [hcc] at hst2
                simp at hst2
              · exact absurd ht2 htn
            · intro o ho hno
              rcases List.mem_cons.mp ho with rfl | ho2
              · simp [entriesReach, kindOf]
              · exact absurd ho2 hno
        | blob =>
          by_cases hmem : oo ∈ seen
          · have hcb : (onUnique recorder).onBlob (seen, evs) (path ++ [c]) oo true =
                ((seen, evs), .ok ()) := by
              simp [onUnique, hmem]
            simp only [travGo, kindOf, hcb, reduceCtorEq, ite_true, ite_false,
              Prod.mk.injEq] at h
            rw [← h.2.1.1]
            refine ⟨closedNew_vacuous, by simpa using hmem, ?_⟩
            intro o ho hno
            exact absurd ho hno
          · have hcb : (onUnique recorder).onBlob (seen, evs) (path ++ [c]) oo true =
                ((oo :: seen, evs ++ [.blob oo true]), .ok ()) := by
              simp [onUnique, recorder, hmem]
            simp only [travGo, kindOf, hcb, reduceCtorEq, ite_true, ite_false,
              Prod.mk.injEq] at h
            rw [← h.2.1.1]
            obtain ⟨cc, hcc⟩ := hT ⟨RawName.component c, FileMode.blob, oo⟩
              (by simp [TravReq.pending]) (by simp [kindOf])
            refine ⟨?_, by simp, ?_⟩
            · intro t ht htn es2 hst2 e2 he2
              rcases List.mem_cons.mp ht with rfl | ht2
              · rw [hcc] at hst2
                simp at hst2
              · exact absurd ht2 htn
            · intro o ho hno
              rcases List.mem_cons.mp ho with rfl | ho2
              · simp [entriesReach, kindOf]
              · exact absurd ho2 hno
        | blobExecutable =>
          by_cases hmem : oo ∈ seen
          · have hcb : (onUnique recorder).onBlob (seen, evs) (path ++ [c]) oo false =
                ((seen, evs), .ok ()) := by
              simp [onUnique, hmem]
            simp only [travGo, kindOf, hcb, reduceCtorEq, ite_true, ite_false,
              Prod.mk.injEq] at h
            rw [← h.2.1.1]
            refine ⟨closedNew_vacuous, by simpa using hmem, ?_⟩
            intro o ho hno
            exact absurd ho hno
          · have hcb : (onUnique recorder).onBlob (seen, evs) (path ++ [c]) oo false =
                ((oo :: seen, evs ++ [.blob oo false]), .ok ()) := by
              simp [onUnique, recorder, hmem]
            simp only [travGo, kindOf, hcb, reduceCtorEq, ite_true, ite_false,
              Prod.mk.injEq] at h
            rw [← h.2.1.1]
            obtain ⟨cc, hcc⟩ := hT ⟨RawName.component c, FileMode.blobExecutable, oo⟩
              (by simp [TravReq.pending]) (by simp [kindOf])
            refine ⟨?_, by simp, ?_⟩
            · intro t ht htn es2 hst2 e2 he2
              rcases List.mem_cons.mp ht with rfl | ht2
              · rw [hcc] at hst2
                simp at hst2
              · exact absurd ht2 htn
            · intro o ho hno
              rcases List.mem_cons.mp ho with rfl | ho2
              · simp [entriesReach, kindOf]
              · exact absurd ho2 hno
        | blobGroupWritable =>
          simp [travGo, kindOf, reduceCtorEq, ite_false, ite_true] at h
        | tree =>
          simp only [travGo, kindOf] at h
          obtain ⟨hcl, hpend, hreach⟩ :=
            ih (.tf eb (seen, evs) (path ++ [c]) oo) _ _ _ _ _ (by
              intro e2 he2 hk2
              simp [TravReq.pending] at he2) h
          simp only [TravReq.rstate, TravReq.pending] at hcl hpend hreach
          refine ⟨hcl, ?_, ?_⟩
          · intro e2 he2
            rcases List.mem_singleton.mp he2 with rfl
            exact hreach.1
          · intro o ho hno
            have := hreach.2 o ho hno
            simp only [entriesReach, kindOf, List.flatMap_cons, List.flatMap_nil,
              List.append_nil, ite_true]
            exact reachTree_mono store n (n + 1) (Nat.le_succ n) oo o this
        | commit =>
          simp [travGo, kindOf, reduceCtorEq, ite_false, ite_true] at h


theorem storeDup_wellTyped : WellTyped storeDup := by
  intro o es hso e he hk
  unfold storeDup at hso
  split_ifs at hso with h0 h1 h3
  · obtain rfl : es = [⟨.marker, .blob, 1⟩, ⟨.component "a", .tree, 3⟩,
        ⟨.component "b", .tree, 3⟩] := by
      injection hso with hh
      exact (Obj.tree.inj hh).symm
    simp only [List.drop_succ_cons, List.drop_zero, List.mem_cons,
      List.not_mem_nil, or_false] at he
    rcases he with rfl | rfl <;> simp [kindOf] at hk
  · simp at hso
  · obtain rfl : es = [⟨.marker, .blob, 1⟩] := by
      injection hso with hh
      exact (Obj.tree.inj hh).symm
    simp at he

/-- Claim C2: over a well-typed store, a completed (`Ok`) traversal with the
dedup adapter invokes the inner visitor exactly once for every address
reachable from the root: the invocation log has no repeated address, every
logged address is reachable, and every reachable address (at any reach
depth) is logged. -/
theorem onUnique_exactly_once_reachable (store : Store) (hWT : WellTyped store)
    {fuel : Nat} {root : Oid} {eb2 : Option Oid} {seen2 : List Oid}
    {evs2 : List VisitEvent} {path2 : List String}
    (h : travRec store fuel root = (eb2, (seen2, evs2), path2, .ok ())) :
    (evs2.map VisitEvent.oid).Nodup ∧
    (∀ o ∈ evs2.map VisitEvent.oid, o ∈ reachTree store fuel root) ∧
    (∀ g o, o ∈ reachTree store g root → o ∈ evs2.map VisitEvent.oid) := by
  have hu := travGo_unique_events store fuel (.tf none ([], []) [] root)
    _ _ _ _ _ h
  simp only [TravReq.rstate] at hu
  obtain ⟨-, ⟨fresh, hfr, hiff⟩, hnd⟩ := hu
  have hseen_iff : ∀ o, o ∈ seen2 ↔ o ∈ evs2.map VisitEvent.oid := by
    intro o
    rw [hiff o, hfr]
    simp
  obtain ⟨hcl, hpend, hroot⟩ := travGo_reach_closed store hWT fuel
    (.tf none ([], []) [] root) _ _ _ _ _
    (by intro e he hk; simp [TravReq.pending] at he) h
  simp only [TravReq.rstate, TravReq.pending] at hcl hroot
  obtain ⟨hrootmem, hreach⟩ := hroot
  refine ⟨(hnd (by simp) (by simp)).1, ?_, ?_⟩
  · intro o ho
    exact hreach o ((hseen_iff o).mpr ho) (by simp)
  · have hclosed : ∀ t ∈ seen2, ∀ es, store t = some (Obj.tree es) →
        ∀ e ∈ es.drop 1, e.oid ∈ seen2 := by
      intro t ht es hst e he
      exact hcl t ht (by simp) es hst e he
    have hreachsub : ∀ g t, t ∈ seen2 → ∀ o ∈ reachTree store g t, o ∈ seen2 := by
      intro g
      induction g with
      | zero =>
        intro t ht o ho
        simp only [reachTree, List.mem_singleton] at ho
        exact ho ▸ ht
      | succ m ihg =>
        intro t ht o ho
        cases hst : store t with
        | none =>
          simp only [reachTree, hst, List.mem_cons] at ho
          rcases ho with rfl | ho
          · exact ht
          · simp at ho
        | some ob =>
          cases ob with
          | blob c =>
            simp only [reachTree, hst, List.mem_cons] at ho
            rcases ho with rfl | ho
            · exact ht
            · simp at ho
          | tree es =>
            simp only [reachTree, hst, List.mem_cons, List.mem_flatMap] at ho
            rcases ho with rfl | ⟨e, he, hoe⟩
            · exact ht
            · have heo : e.oid ∈ seen2 := hclosed t ht es hst e he
              by_cases hk : kindOf e.mode = ObjectType.tree
              · rw [if_pos hk] at hoe
                exact ihg e.oid heo o hoe
              · rw [if_neg hk] at hoe
                simp only [List.mem_singleton] at hoe
                exact hoe ▸ heo
    intro g o ho
    exact (hseen_iff o).mp (hreachsub g root hrootmem o ho)

/-- Witness for `onUnique_exactly_once_reachable`: the dup-subtree store of
the spec's scenario — the shared subtree address `3` is visited exactly
once. -/
theorem onUnique_exactly_once_reachable_witness :
    travRec storeDup 8 0 = (some 1, ([3, 0], [.tree 0, .tree 3]), [], .ok ()) ∧
    (([VisitEvent.tree 0, VisitEvent.tree 3].map VisitEvent.oid).Nodup ∧
      (∀ o ∈ [VisitEvent.tree 0, VisitEvent.tree 3].map VisitEvent.oid,
        o ∈ reachTree storeDup 8 0) ∧
      ∀ g o, o ∈ reachTree storeDup g 0 →
        o ∈ [VisitEvent.tree 0, VisitEvent.tree 3].map VisitEvent.oid) :=
  ⟨by decide,
    @onUnique_exactly_once_reachable storeDup storeDup_wellTyped 8 0 (some 1)
      [3, 0] [.tree 0, .tree 3] [] (by decide)⟩


/-! ## Planter invariants -/

theorem plant_marker (empty : GObj) :
    ∀ fuel : Nat,
      (∀ e rest res rem log, plantInner empty fuel e rest = some (res, rem, log) →
        ∀ t ∈ log, (markerEncoded, FileMode.blob, empty) ∈ t) ∧
      (∀ dir entries acc ents rem log,
        (markerEncoded, FileMode.blob, empty) ∈ acc →
        plantLoop empty fuel dir entries acc = some (ents, rem, log) →
        ((markerEncoded, FileMode.blob, empty) ∈ ents ∧
          ∀ t ∈ log, (markerEncoded, FileMode.blob, empty) ∈ t)) := by
  intro fuel
  induction fuel with
  | zero =>
    constructor
    · intro e rest res rem log h
      simp [plantInner] at h
    · intro dir entries acc ents rem log hacc h
      simp [plantLoop] at h
  | succ n ih =>
    constructor
    · intro e rest res rem log h
      cases hv : e.value with
      | file sh ex =>
        simp only [plantInner, hv, Option.some.injEq, Prod.mk.injEq] at h
        rw [← h.2.2]
        intro t ht
        simp at ht
      | link tgt =>
        simp only [plantInner, hv, Option.some.injEq, Prod.mk.injEq] at h
        rw [← h.2.2]
        intro t ht
        simp at ht
      | tree =>
        simp only [plantInner, hv] at h
        rcases hl : plantLoop empty n e.path rest
            [(markerEncoded, FileMode.blob, empty)] with _ | ⟨ents2, rem2, log2⟩
        · rw [hl] at h
          simp at h
        · simp only [hl, Option.some.injEq, Prod.mk.injEq] at h
          obtain ⟨hm, hlog⟩ := ih.2 e.path rest _ _ _ _ (by simp) hl
          rw [← h.2.2]
          intro t ht
          rcases List.mem_append.mp ht with ht | ht
          · exact hlog t ht
          · rw [List.mem_singleton.mp ht]
            exact hm
    · intro dir entries acc ents rem log hacc h
      cases entries with
      | nil =>
        simp only [plantLoop, Option.some.injEq, Prod.mk.injEq] at h
        rw [← h.1, ← h.2.2]
        exact ⟨hacc, by intro t ht; simp at ht⟩
      | cons child rest =>
        simp only [plantLoop] at h
        cases hgl : child.path.getLast? with
        | none =>
          simp only [hgl] at h
          exact absurd h (by simp)
        | some nm =>
          simp only [hgl] at h
          by_cases hdir : child.path.dropLast = dir
          · rw [if_pos hdir] at h
            rcases hpi : plantInner empty n child rest with _ | ⟨⟨m, o⟩, rem1, log1⟩
            · rw [hpi] at h
              simp at h
            · simp only [hpi] at h
              rcases hpl : plantLoop empty n dir rem1
                  (acc ++ [(encodeChild nm, m, o)]) with _ | ⟨ents2, rem2, log2⟩
              · rw [hpl] at h
                simp at h
              · simp only [hpl, Option.some.injEq, Prod.mk.injEq] at h
                obtain ⟨hm2, hlog2⟩ := ih.2 dir rem1 _ _ _ _
                  (List.mem_append_left _ hacc) hpl
                refine ⟨h.1 ▸ hm2, ?_⟩
                rw [← h.2.2]
                intro t ht
                rcases List.mem_append.mp ht with ht | ht
                · exact ih.1 child rest _ _ _ hpi t ht
                · exact hlog2 t ht
          · rw [if_neg hdir] at h
            simp only [Option.some.injEq, Prod.mk.injEq] at h
            rw [← h.1, ← h.2.2]
            exact ⟨hacc, by intro t ht; simp at ht⟩

/-- Claim C6: every tree object written by `plant_snapshot` contains the
marker entry with mode `Blob` pointing at the empty-blob address, and —
since the empty-blob address is obtained once at the start of planting and
passed unchanged through the whole plant — all written trees point at one
and the same empty blob. -/
theorem plantSnapshot_marker {fuel : Nat} {entries : List SnapshotEntry}
    {res : FileMode × GObj} {log : List (List (String × FileMode × GObj))}
    (h : plantSnapshot fuel entries = some (res, log)) :
    ∀ t ∈ log, (markerEncoded, FileMode.blob, GObj.blob []) ∈ t := by
  cases entries with
  | nil => simp [plantSnapshot] at h
  | cons e rest =>
    simp only [plantSnapshot] at h
    by_cases hp : e.path = []
    · rw [if_pos hp] at h
      rcases hpi : plantInner (GObj.blob []) fuel e rest with _ | ⟨res2, rem2, log2⟩
      · rw [hpi] at h
        simp at h
      · simp only [hpi] at h
        by_cases hrem : rem2 = []
        · rw [if_pos hrem] at h
          simp only [Option.some.injEq, Prod.mk.injEq] at h
          rw [← h.2]
          exact (plant_marker (GObj.blob []) fuel).1 e rest _ _ _ hpi
        · rw [if_neg hrem] at h
          simp at h
    · rw [if_neg hp] at h
      simp at h

/-- Witness for `plantSnapshot_marker`: planting the single-entry sequence
`[Tree at the root]` writes one tree, which carries the marker. -/
theorem plantSnapshot_marker_witness :
    plantSnapshot 2 [⟨[], .tree⟩] =
      some ((FileMode.tree, GObj.tree [(markerEncoded, FileMode.blob, GObj.blob [])]),
        [[(markerEncoded, FileMode.blob, GObj.blob [])]]) ∧
    ∀ t ∈ [[(markerEncoded, FileMode.blob, GObj.blob [])]],
      (markerEncoded, FileMode.blob, GObj.blob []) ∈ t :=
  ⟨by decide,
    @plantSnapshot_marker 2 [⟨[], .tree⟩]
      (FileMode.tree, GObj.tree [(markerEncoded, FileMode.blob, GObj.blob [])])
      [[(markerEncoded, FileMode.blob, GObj.blob [])]] (by decide)⟩


/-! ## Persistent tree editor: append/remove inverse -/

theorem lookupFirst_insertSorted {k : String} {v : FileMode × GObj}
    {es : List (String × FileMode × GObj)} (h : lookupFirst k es = none) :
    lookupFirst k (insertSorted k v es) = some v := by
  induction es with
  | nil => simp [insertSorted, lookupFirst]
  | cons hd t ih =>
    obtain ⟨k2, w⟩ := hd
    simp only [lookupFirst] at h
    by_cases hk : k2 = k
    · rw [if_pos hk] at h
      exact absurd h (by simp)
    · rw [if_neg hk] at h
      simp only [insertSorted]
      by_cases hlt : keyLt k k2 = true
      · simp [lookupFirst, hlt]
      · simp [lookupFirst, hlt, hk, ih h]

theorem eraseFirst_insertSorted {k : String} {v : FileMode × GObj}
    {es : List (String × FileMode × GObj)} (h : lookupFirst k es = none) :
    eraseFirst k (insertSorted k v es) = es := by
  induction es with
  | nil => simp [insertSorted, eraseFirst]
  | cons hd t ih =>
    obtain ⟨k2, w⟩ := hd
    simp only [lookupFirst] at h
    by_cases hk : k2 = k
    · rw [if_pos hk] at h
      exact absurd h (by simp)
    · rw [if_neg hk] at h
      simp only [insertSorted]
      by_cases hlt : keyLt k k2 = true
      · simp [eraseFirst, hlt]
      · simp [eraseFirst, hlt, hk, ih h]

theorem lookupFirst_setFirst_self {k : String} {v w : FileMode × GObj}
    {es : List (String × FileMode × GObj)} (h : lookupFirst k es = some w) :
    lookupFirst k (setFirst k v es) = some v := by
  induction es with
  | nil => simp [lookupFirst] at h
  | cons hd t ih =>
    obtain ⟨k2, w2⟩ := hd
    simp only [lookupFirst] at h
    by_cases hk : k2 = k
    · simp [setFirst, lookupFirst, hk]
    · rw [if_neg hk] at h
      simp [setFirst, lookupFirst, hk, ih h]

theorem setFirst_setFirst_restore {k : String} {v v2 : FileMode × GObj}
    {es : List (String × FileMode × GObj)} (h : lookupFirst k es = some v) :
    setFirst k v (setFirst k v2 es) = es := by
  induction es with
  | nil => simp [lookupFirst] at h
  | cons hd t ih =>
    obtain ⟨k2, w2⟩ := hd
    simp only [lookupFirst] at h
    by_cases hk : k2 = k
    · rw [if_pos hk] at h
      obtain rfl : w2 = v := by simpa using h
      simp [setFirst, hk]
    · rw [if_neg hk] at h
      simp [setFirst, hk, ih h]

/-- Claim C9 (amended): for every root tree, mode and object, and every
non-empty relative path each of whose proper prefixes resolves to an
existing tree entry and whose final component is absent at its level
(`pathFits`), removing the appended path restores the original root exactly:
`remove(append(T, p, m, o, force := false), p) = T`. When an intermediate
directory of the path did not exist in the root, the inverse fails: `append`
creates it, and `remove` deletes only the final entry, leaving a marker-only
directory behind. -/
theorem append_remove_inverse :
    ∀ (p : List String) (T : GObj) (m : FileMode) (o : GObj),
      pathFits T p = true →
      (appendG T p m o false).bind (fun t => removeG t p) = .ok T := by
  intro p
  induction p with
  | nil =>
    intro T m o hp
    cases T <;> simp [pathFits] at hp
  | cons c rest ih =>
    intro T m o hp
    cases rest with
    | nil =>
      cases T with
      | blob content => simp [pathFits] at hp
      | tree es =>
        simp only [pathFits, Option.isNone_iff_eq_none] at hp
        simp only [appendG, hp]
        simp only [Except.bind, removeG, lookupFirst_insertSorted hp,
          eraseFirst_insertSorted hp]
    | cons c2 rest2 =>
      cases T with
      | blob content => simp [pathFits] at hp
      | tree es =>
        simp only [pathFits] at hp
        rcases hlk : lookupFirst (encodeChild c) es with _ | ⟨fm, sub⟩
        · rw [hlk] at hp
          simp at hp
        · rw [hlk] at hp
          cases fm with
          | tree =>
            have ihs := ih sub m o hp
            rcases happ : appendG sub (c2 :: rest2) m o false with er | sub2
            · rw [happ] at ihs
              simp [Except.bind] at ihs
            · rw [happ] at ihs
              simp only [Except.bind] at ihs
              simp only [appendG, hlk, happ]
              simp only [Except.bind, removeG, lookupFirst_setFirst_self
                (v := (FileMode.tree, sub2)) hlk, ihs,
                setFirst_setFirst_restore hlk]
          | blob => simp at hp
          | blobGroupWritable => simp at hp
          | blobExecutable => simp at hp
          | link => simp at hp
          | commit => simp at hp

/-- Witness for `append_remove_inverse`: appending a blob at `["x"]` into
the empty directory and removing it again restores the empty directory. -/
theorem append_remove_inverse_witness :
    pathFits emptyTreeG ["x"] = true ∧
    (appendG emptyTreeG ["x"] FileMode.blob (GObj.blob ['h']) false).bind
        (fun t => removeG t ["x"]) = .ok emptyTreeG :=
  ⟨by decide,
    append_remove_inverse ["x"] emptyTreeG FileMode.blob (GObj.blob ['h'])
      (by decide)⟩

/-- Counterexample to claim C9 as stated: appending at `["x", "y"]` into the
empty directory (where the final component is absent) and removing the same
path does not restore the original address — a marker-only directory `"x"`
is left behind. -/
theorem append_remove_counterexample :
    (appendG emptyTreeG ["x", "y"] FileMode.blob (GObj.blob ['h']) false).bind
        (fun t => removeG t ["x", "y"]) =
      .ok (GObj.tree [(markerEncoded, FileMode.blob, GObj.blob []),
        ("x", FileMode.tree, emptyTreeG)]) ∧
    GObj.tree [(markerEncoded, FileMode.blob, GObj.blob []),
      ("x", FileMode.tree, emptyTreeG)] ≠ emptyTreeG := by
  constructor <;> decide


end Keep
